import Mathlib

/-!
# The token scanner of `parsing.c`

A shallow embedding of `main` of `src/parsing.c` and the properties of the
scan that the specification states about it.

Modelling conventions.

* The file is the list of bytes that `fgetc` delivers (`Fin 256`), or `none`
  when `fopen` returned a null stream.
* `char` is the signed 8-bit type of the usual x86 ABI: `ch = fgetc(file)`
  converts the `int` to a value in `-128 .. 127`.  The loop condition compares
  that converted value with `EOF`, so byte `0xFF` ends the loop exactly like
  the end of the file does.
* `r_buffer` is the memory starting at `r_buffer[0]`, a function from indices
  to characters; the index of every store into it is recorded in `writes`.
  The initial (uninitialised) contents of the array are the parameter `r0`.
* `w_buffer` is only ever used as a C string (`strcat`, `%s`); it is modelled
  by the string it holds, and the number of cells that every `strcat` call
  needs is recorded in `cats`.  Its initial (uninitialised) contents are the
  parameter `w0`.
* The source declares `char r_buffer[100]` and `char w_buffer[250]` and tests
  no index.  An access outside an array is undefined behaviour: from there on
  C says nothing of what the program does, and the fields of the state are no
  longer those of the program.  `InBounds` says that every recorded access is
  inside its array; `main` has the outcome `undefined` when it is not so, and
  what is stated of the output of the program is stated of scans that are
  `InBounds`.
* Every `printf` call appends one `Line` to `out`; `Line.text` is the exact
  text it writes, and `Outcome.console` is the text on the console.
-/

namespace Parsing

/-- The value `EOF` of `<stdio.h>`. -/
def EOF : Int := -1

/-- Conversion of an `int` to (signed, 8-bit) `char`, as in `ch = fgetc(file)`. -/
def toChar (v : Int) : Int := (v + 128) % 256 - 128

/-- The function `isspace` of `<ctype.h>` in the "C" locale (the program never
calls `setlocale`): space, `\t`, `\n`, `\v`, `\f`, `\r`.  The argument is the
`char` value promoted to `int`; for the negative values (bytes `0x80 .. 0xFE`)
the result is false, as the classification table of the C library gives it. -/
def isspace (c : Int) : Bool := c == 32 || (9 ≤ c && c ≤ 13)

/-- One `printf` call of the program. -/
inductive Line where
  /-- The call `printf("Processing tokens:\n")`. -/
  | header : Line
  /-- The call `printf("Token: %s\n", r_buffer)`, with the string printed for `%s`. -/
  | token : List Int → Line
  /-- The call `printf("w_buffer: %s\n", w_buffer)`, with the string printed for `%s`. -/
  | wbuf : List Int → Line
  deriving DecidableEq, Repr

/-- The characters of a string literal of the program, as `char` values. -/
def lit (s : String) : List Int := s.toList.map (fun c => (c.toNat : Int))

/-- The text written by a `printf` call. -/
def Line.text : Line → List Int
  | .header => lit "Processing tokens:\n"
  | .token t => lit "Token: " ++ t ++ lit "\n"
  | .wbuf w => lit "w_buffer: " ++ w ++ lit "\n"

/-- The local variables of `main` during the scan, with the console output so
far (`out`), the indices of the stores into `r_buffer` so far (`writes`) and,
for every `strcat` into `w_buffer` so far, the number of cells it needs
(`cats`). -/
structure State where
  r_buffer : Nat → Int
  w_buffer : List Int
  idx : Nat
  process : Int
  out : List Line
  writes : List Nat
  cats : List Nat

/-- Every access to the two arrays so far was inside the array: every store
into `char r_buffer[100]` at an index below 100, and every `strcat` into
`char w_buffer[250]` within its 250 cells.  Only then is the state that of
the program. -/
def InBounds (s : State) : Prop :=
  (∀ i ∈ s.writes, i < 100) ∧ (∀ n ∈ s.cats, n ≤ 250)

instance (s : State) : Decidable (InBounds s) := by
  unfold InBounds
  infer_instance

/-- The memory `mem` after the store `mem[i] = v`. -/
def store (mem : Nat → Int) (i : Nat) (v : Int) : Nat → Int :=
  fun j => if j = i then v else mem j

/-- The C string that starts at cell `i` of `mem`: the characters before the
first NUL, reading at most `n` cells. -/
def c_str (mem : Nat → Int) : Nat → Nat → List Int
  | _, 0 => []
  | i, n + 1 => if mem i = 0 then [] else mem i :: c_str mem (i + 1) n

/-- The body of the `while` loop, for the character `ch` just read.  The store
into `r_buffer` is outside the array when `idx` is 100 or more, and the
`strcat` is outside `w_buffer` when the string that results and its
terminating NUL need more than 250 cells; both are recorded (`writes`,
`cats`), and the state that follows is that of the program only when they
are inside (`InBounds`). -/
def step (s : State) (ch : Int) : State :=
  if s.process = 0 then
    -- printf("w_buffer: %s\n", w_buffer); process = 1; continue;
    { s with out := s.out ++ [Line.wbuf s.w_buffer], process := 1 }
  else if s.process ≠ 0 then
    if !isspace ch then
      -- r_buffer[idx++] = ch;
      { s with r_buffer := store s.r_buffer s.idx ch,
               idx := s.idx + 1,
               writes := s.writes ++ [s.idx] }
    else
      -- r_buffer[idx] = '\0'; printf("Token: %s\n", r_buffer);
      -- strcat(w_buffer, r_buffer); process = 0; idx = 0;
      let r := store s.r_buffer s.idx 0
      let t := c_str r 0 (s.idx + 1)
      { s with r_buffer := r,
               w_buffer := s.w_buffer ++ t,
               idx := 0,
               process := 0,
               out := s.out ++ [Line.token t],
               writes := s.writes ++ [s.idx],
               cats := s.cats ++ [s.w_buffer.length + t.length + 1] }
  else s

/-- The `while ((ch = fgetc(file)) != EOF)` loop over the bytes still unread. -/
def loop (s : State) : List (Fin 256) → State
  | [] => s
  | b :: rest =>
    let ch := toChar (b.val : Int)
    if ch ≠ EOF then loop (step s ch) rest else s

/-- The statement after the loop: `if (idx > 0) { r_buffer[idx] = '\0'; printf(...); }`.
The store is outside the array when `idx` is 100 or more; it is recorded in
`writes`, and the line printed is that of the program only when the state
that results is `InBounds`. -/
def flush (s : State) : State :=
  if s.idx > 0 then
    let r := store s.r_buffer s.idx 0
    { s with r_buffer := r,
             out := s.out ++ [Line.token (c_str r 0 (s.idx + 1))],
             writes := s.writes ++ [s.idx] }
  else s

/-- The state at the loop entry: `idx = 0`, `process = 1`, both buffers
uninitialised, and the header line already printed. -/
def init (r0 : Nat → Int) (w0 : List Int) : State :=
  { r_buffer := r0, w_buffer := w0, idx := 0, process := 1,
    out := [Line.header], writes := [], cats := [] }

/-- The scan of `main` on an opened file: header, loop, final flush.  The state
that results is that of the program when it is `InBounds`. -/
def scan (r0 : Nat → Int) (w0 : List Int) (input : List (Fin 256)) : State :=
  flush (loop (init r0 w0) input)

/-- How a run of `main` ends. -/
inductive Outcome where
  /-- Return from `main` with this exit code, after printing these lines. -/
  | exit : Int → List Line → Outcome
  /-- Undefined behaviour (a library call on a null stream, or an access outside
  `r_buffer` or `w_buffer`), before which these lines, at least, were printed. -/
  | undefined : List Line → Outcome
  deriving DecidableEq, Repr

/-- The function `main`.  `file` is what `fopen("tokens.txt", "r")` returns:
`none` for a null stream, otherwise the bytes of the file.  On a null stream
the header is printed and `fgetc` is called on it.  On an opened file `main`
returns 0 after the scan when every access of the scan was inside its array;
when one was not, the behaviour is undefined from that access on, and
nothing but the header is known to be printed. -/
def main (file : Option (List (Fin 256))) (r0 : Nat → Int) (w0 : List Int) : Outcome :=
  match file with
  | none => Outcome.undefined [Line.header]
  | some input =>
    if InBounds (scan r0 w0 input) then Outcome.exit 0 (scan r0 w0 input).out
    else Outcome.undefined [Line.header]

/-- The tokens emitted: the strings of the `Token:` lines, in order. -/
def tokensOf : List Line → List (List Int)
  | [] => []
  | Line.token t :: ls => t :: tokensOf ls
  | _ :: ls => tokensOf ls

/-- The tokens emitted by the scan of an opened file (those that the program
prints, when the scan is `InBounds`). -/
def tokens (r0 : Nat → Int) (w0 : List Int) (input : List (Fin 256)) : List (List Int) :=
  tokensOf (scan r0 w0 input).out

/-- The lines printed by a run of `main`. -/
def Outcome.lines : Outcome → List Line
  | .exit _ ls => ls
  | .undefined ls => ls

/-- The exit code of a run of `main`, when it returns. -/
def Outcome.code : Outcome → Option Int
  | .exit c _ => some c
  | .undefined _ => none

/-- What a `printf` call writes before the newline character that ends it. -/
def Line.label : Line → List Int
  | .header => lit "Processing tokens:"
  | .token t => lit "Token: " ++ t
  | .wbuf w => lit "w_buffer: " ++ w

/-- The text on the console after a run of `main`: the texts of the `printf`
calls, in order. -/
def Outcome.console (o : Outcome) : List Int := (o.lines.map Line.text).flatten

/-- The lines of a text after the characters `cur` of an unfinished line: a line
ends at each newline character. -/
def textLinesFrom (cur : List Int) : List Int → List (List Int)
  | [] => if cur.isEmpty then [] else [cur]
  | c :: cs => if c = 10 then cur :: textLinesFrom [] cs else textLinesFrom (cur ++ [c]) cs

/-- The lines of a console text. -/
def textLines (txt : List Int) : List (List Int) := textLinesFrom [] txt

/-- The bytes of a text, for writing inputs. -/
def bytes (s : String) : List (Fin 256) := s.toList.map (fun c => Fin.ofNat c.toNat)

/-- The `char` values of the bytes of a file. -/
def chars (input : List (Fin 256)) : List Int := input.map (fun b => toChar (b.val : Int))

/-- The cells `mem[i], ..., mem[i+n-1]`, in order. -/
def cells (mem : Nat → Int) : Nat → Nat → List Int
  | _, 0 => []
  | i, n + 1 => mem i :: cells mem (i + 1) n

/-- The accumulator of the scan: the characters `r_buffer[0], ..., r_buffer[idx-1]`
stored since the index was last reset. -/
def acc (s : State) : List Int := cells s.r_buffer 0 s.idx

/-- The byte whose `char` value is `c`. -/
def unchar (c : Int) : Fin 256 := Fin.ofNat (c % 256).toNat

/-- The text made of the given tokens joined by one space character, as file
contents. -/
def rejoin (ts : List (List Int)) : List (Fin 256) :=
  (List.intercalate [32] ts).map unchar

/-- The tokenizer as the specification words it: the maximal runs of
non-whitespace characters of the input, in order. -/
def maximalRuns (cs : List Int) : List (List Int) :=
  (cs.splitOnP isspace).filter (fun run => !run.isEmpty)

/-- Two scan states that differ at most in the parts that are never read back:
the cells of `r_buffer` from `idx` on, the contents of `w_buffer`, and the
lines other than `Token:` lines. -/
def Sim (s s' : State) : Prop :=
  s.idx = s'.idx ∧ s.process = s'.process ∧ acc s = acc s' ∧
    tokensOf s.out = tokensOf s'.out ∧ s.writes = s'.writes

instance (s s' : State) : Decidable (Sim s s') := by
  unfold Sim
  infer_instance

/-- A string without whitespace characters. -/
def WsFree (t : List Int) : Prop := ∀ c ∈ t, isspace c = false

instance (t : List Int) : Decidable (WsFree t) := by
  unfold WsFree
  infer_instance

/-- A line other than the header: a `Token:` line or a `w_buffer:` line. -/
def Line.isBody : Line → Bool
  | .header => false
  | .token _ => true
  | .wbuf _ => true

/-- A state that the loop of the program can be in: the state after the loop
has run from the loop entry on some file contents, whatever the buffers held
at the start, with every access so far inside its array. -/
def Reachable (s : State) : Prop :=
  ∃ r0 w0 input, loop (init r0 w0) input = s ∧ InBounds s

/-- The `w_buffer:` lines printed: the strings shown, in order. -/
def wbufsOf : List Line → List (List Int)
  | [] => []
  | Line.wbuf w :: ls => w :: wbufsOf ls
  | _ :: ls => wbufsOf ls

/-- The lines `Token: t1`, `w_buffer: w t1`, `Token: t2`, `w_buffer: w t1 t2`, ...:
each token line directly followed by a `w_buffer:` line that shows `w` and
then all tokens so far. -/
def interleaved (w : List Int) : List (List Int) → List Line
  | [] => []
  | t :: ts => Line.token t :: Line.wbuf (w ++ t) :: interleaved (w ++ t) ts

/-- Whether every run of non-whitespace characters of `cs` has at most `n`
characters, the first run counted with `k` characters before it. -/
def runsWithin (n : Nat) : Nat → List Int → Bool
  | k, [] => decide (k ≤ n)
  | k, c :: cs => if isspace c then decide (k ≤ n) && runsWithin n 0 cs
                  else runsWithin n (k + 1) cs

theorem c_str_eq_takeWhile (mem : Nat → Int) (i n : Nat) :
    c_str mem i n = (cells mem i n).takeWhile (fun c => decide (c ≠ 0)) := by
  induction n generalizing i with
  | zero => simp [c_str, cells]
  | succ n ih =>
    by_cases h : mem i = 0
    · simp [c_str, cells, h]
    · simp [c_str, cells, h, ih]

theorem cells_snoc (mem : Nat → Int) (i n : Nat) :
    cells mem i (n + 1) = cells mem i n ++ [mem (i + n)] := by
  induction n generalizing i with
  | zero => simp [cells]
  | succ n ih =>
    have h := ih (i + 1)
    have e : i + 1 + n = i + (n + 1) := by omega
    rw [e] at h
    rw [cells, h]
    simp [cells]

theorem cells_store_of_le (mem : Nat → Int) (i n j : Nat) (v : Int) (h : i + n ≤ j) :
    cells (store mem j v) i n = cells mem i n := by
  induction n generalizing i with
  | zero => simp [cells]
  | succ n ih =>
    have hne : i ≠ j := by omega
    simp [cells, store, hne, ih (i + 1) (by omega)]

theorem length_cells (mem : Nat → Int) (i n : Nat) : (cells mem i n).length = n := by
  induction n generalizing i with
  | zero => simp [cells]
  | succ n ih => simp [cells, ih]

theorem cells_store_snoc (mem : Nat → Int) (n : Nat) (v : Int) :
    cells (store mem n v) 0 (n + 1) = cells mem 0 n ++ [v] := by
  rw [cells_snoc, cells_store_of_le mem 0 n n v (by omega)]
  simp [store]

theorem takeWhile_append_stop {α : Type} (p : α → Bool) (l r : List α) (x : α)
    (hx : p x = false) : (l ++ x :: r).takeWhile p = l.takeWhile p := by
  induction l with
  | nil => simp [List.takeWhile, hx]
  | cons a l ih =>
    by_cases ha : p a = true
    · simp [List.takeWhile, ha, ih]
    · simp [List.takeWhile, ha]

theorem takeWhile_append_of_mem_stop {α : Type} (p : α → Bool) (l r : List α) (x : α)
    (hmem : x ∈ l) (hx : p x = false) : (l ++ r).takeWhile p = l.takeWhile p := by
  obtain ⟨l1, l2, rfl⟩ := List.append_of_mem hmem
  rw [List.append_assoc, List.cons_append, takeWhile_append_stop p l1 _ x hx,
    takeWhile_append_stop p l1 _ x hx]

/-- What `%s` prints for `r_buffer` right after `r_buffer[n] = 0`: the cells
before index `n`, up to the first NUL among them. -/
theorem c_str_store_nul (mem : Nat → Int) (n : Nat) :
    c_str (store mem n 0) 0 (n + 1) = (cells mem 0 n).takeWhile (fun c => decide (c ≠ 0)) := by
  rw [c_str_eq_takeWhile, cells_store_snoc]
  exact takeWhile_append_stop _ _ [] 0 (by simp)

theorem cells_add (mem : Nat → Int) (i n k : Nat) :
    cells mem i (n + k) = cells mem i n ++ cells mem (i + n) k := by
  induction k with
  | zero => simp [cells]
  | succ k ih =>
    have e : n + (k + 1) = (n + k) + 1 := by omega
    rw [e, cells_snoc, ih, cells_snoc, List.append_assoc]
    have e2 : i + (n + k) = i + n + k := by omega
    rw [e2]

/-- Reading more cells than `n + 1` does not change the string printed after
`r_buffer[n] = 0`. -/
theorem c_str_store_nul_fuel (mem : Nat → Int) (n k : Nat) :
    c_str (store mem n 0) 0 (n + 1 + k) = c_str (store mem n 0) 0 (n + 1) := by
  rw [c_str_eq_takeWhile, c_str_eq_takeWhile, cells_add]
  apply takeWhile_append_of_mem_stop _ _ _ 0
  · rw [cells_store_snoc]; simp
  · simp

/-! ## The loop body, case by case -/

theorem toChar_eq_EOF_iff (b : Fin 256) : toChar (b.val : Int) = EOF ↔ b.val = 255 := by
  have hb := b.isLt
  unfold toChar EOF
  omega

theorem toChar_eq_zero_iff (b : Fin 256) : toChar (b.val : Int) = 0 ↔ b.val = 0 := by
  have hb := b.isLt
  unfold toChar
  omega

theorem loop_cons_of_ne (s : State) (b : Fin 256) (rest : List (Fin 256)) (hb : b.val ≠ 255) :
    loop s (b :: rest) = loop (step s (toChar (b.val : Int))) rest := by
  have h : toChar (b.val : Int) ≠ EOF := fun e => hb ((toChar_eq_EOF_iff b).mp e)
  simp [loop, h]

theorem loop_cons_of_eq (s : State) (b : Fin 256) (rest : List (Fin 256)) (hb : b.val = 255) :
    loop s (b :: rest) = s := by
  have h : toChar (b.val : Int) = EOF := (toChar_eq_EOF_iff b).mpr hb
  simp [loop, h]

theorem step_of_pending (s : State) (ch : Int) (hp : s.process = 0) :
    step s ch = { s with out := s.out ++ [Line.wbuf s.w_buffer], process := 1 } := by
  simp [step, hp]

theorem step_of_char (s : State) (ch : Int) (hp : s.process ≠ 0) (hc : isspace ch = false) :
    step s ch = { s with r_buffer := store s.r_buffer s.idx ch,
                         idx := s.idx + 1,
                         writes := s.writes ++ [s.idx] } := by
  simp [step, hp, hc]

theorem step_of_space (s : State) (ch : Int) (hp : s.process ≠ 0) (hc : isspace ch = true) :
    step s ch = { s with r_buffer := store s.r_buffer s.idx 0,
                         w_buffer := s.w_buffer ++ (acc s).takeWhile (fun c => decide (c ≠ 0)),
                         idx := 0,
                         process := 0,
                         out := s.out ++ [Line.token ((acc s).takeWhile (fun c => decide (c ≠ 0)))],
                         writes := s.writes ++ [s.idx],
                         cats := s.cats ++ [s.w_buffer.length +
                           ((acc s).takeWhile (fun c => decide (c ≠ 0))).length + 1] } := by
  simp [step, hp, hc, c_str_store_nul, acc]

theorem flush_of_pos (s : State) (h : 0 < s.idx) :
    flush s = { s with r_buffer := store s.r_buffer s.idx 0,
                       out := s.out ++ [Line.token ((acc s).takeWhile (fun c => decide (c ≠ 0)))],
                       writes := s.writes ++ [s.idx] } := by
  simp [flush, h, c_str_store_nul, acc]

theorem flush_of_zero (s : State) (h : s.idx = 0) : flush s = s := by
  simp [flush, h]

theorem acc_step_of_char (s : State) (ch : Int) (hp : s.process ≠ 0) (hc : isspace ch = false) :
    acc (step s ch) = acc s ++ [ch] := by
  rw [step_of_char s ch hp hc]
  simp [acc, cells_store_snoc]

theorem acc_of_idx_zero (s : State) (h : s.idx = 0) : acc s = [] := by
  simp [acc, h, cells]

theorem length_acc (s : State) : (acc s).length = s.idx := by
  simp [acc, length_cells]

theorem tokensOf_append (xs ys : List Line) : tokensOf (xs ++ ys) = tokensOf xs ++ tokensOf ys := by
  induction xs with
  | nil => rfl
  | cons l xs ih => cases l <;> simp [tokensOf, ih]

/-- A property that holds at the loop entry and is kept by the loop body holds
when the loop ends. -/
theorem loop_induct (P : State → Prop) (hstep : ∀ s ch, P s → P (step s ch))
    (s : State) (input : List (Fin 256)) (h0 : P s) : P (loop s input) := by
  induction input generalizing s with
  | nil => exact h0
  | cons b rest ih =>
    by_cases hb : b.val = 255
    · rw [loop_cons_of_eq s b rest hb]; exact h0
    · rw [loop_cons_of_ne s b rest hb]; exact ih _ (hstep s _ h0)

/-! ## The uninitialised buffer contents do not influence the tokens -/

theorem step_sim (s s' : State) (ch : Int) (h : Sim s s') : Sim (step s ch) (step s' ch) := by
  obtain ⟨hi, hp, ha, ho, hw⟩ := h
  by_cases hp0 : s.process = 0
  · have hp0' : s'.process = 0 := hp ▸ hp0
    rw [step_of_pending s ch hp0, step_of_pending s' ch hp0']
    refine ⟨hi, rfl, ?_, ?_, hw⟩
    · simpa [acc] using ha
    · simp [tokensOf_append, tokensOf, ho]
  · have hp0' : s'.process ≠ 0 := hp ▸ hp0
    cases hc : isspace ch with
    | false =>
      refine ⟨?_, ?_, ?_, ?_, ?_⟩
      · rw [step_of_char s ch hp0 hc, step_of_char s' ch hp0' hc]; simp [hi]
      · rw [step_of_char s ch hp0 hc, step_of_char s' ch hp0' hc]; simp [hp]
      · rw [acc_step_of_char s ch hp0 hc, acc_step_of_char s' ch hp0' hc, ha]
      · rw [step_of_char s ch hp0 hc, step_of_char s' ch hp0' hc]; simp [ho]
      · rw [step_of_char s ch hp0 hc, step_of_char s' ch hp0' hc]; simp [hw, hi]
    | true =>
      rw [step_of_space s ch hp0 hc, step_of_space s' ch hp0' hc]
      refine ⟨rfl, rfl, ?_, ?_, ?_⟩
      · simp [acc, cells]
      · simp [tokensOf_append, tokensOf, ho, ha]
      · simp [hw, hi]

theorem loop_sim (s s' : State) (input : List (Fin 256)) (h : Sim s s') :
    Sim (loop s input) (loop s' input) := by
  induction input generalizing s s' with
  | nil => exact h
  | cons b rest ih =>
    by_cases hb : b.val = 255
    · rw [loop_cons_of_eq s b rest hb, loop_cons_of_eq s' b rest hb]; exact h
    · rw [loop_cons_of_ne s b rest hb, loop_cons_of_ne s' b rest hb]
      exact ih _ _ (step_sim s s' _ h)

theorem flush_sim (s s' : State) (h : Sim s s') : Sim (flush s) (flush s') := by
  obtain ⟨hi, hp, ha, ho, hw⟩ := h
  by_cases h0 : 0 < s.idx
  · have h0' : 0 < s'.idx := hi ▸ h0
    rw [flush_of_pos s h0, flush_of_pos s' h0']
    refine ⟨hi, hp, ?_, ?_, ?_⟩
    · simp only [acc]
      rw [cells_store_of_le _ 0 s.idx s.idx 0 (by omega),
        cells_store_of_le _ 0 s'.idx s'.idx 0 (by omega)]
      exact ha
    · simp [tokensOf_append, tokensOf, ho, ha]
    · simp [hw, hi]
  · have hz : s.idx = 0 := by omega
    have hz' : s'.idx = 0 := hi ▸ hz
    rw [flush_of_zero s hz, flush_of_zero s' hz']
    exact ⟨hi, hp, ha, ho, hw⟩

theorem init_sim (r0 r0' : Nat → Int) (w0 w0' : List Int) : Sim (init r0 w0) (init r0' w0') := by
  simp [Sim, init, acc, cells]

theorem scan_sim (r0 r0' : Nat → Int) (w0 w0' : List Int) (input : List (Fin 256)) :
    Sim (scan r0 w0 input) (scan r0' w0' input) :=
  flush_sim _ _ (loop_sim _ _ input (init_sim r0 r0' w0 w0'))

/-- The tokens emitted are the same whatever the two buffers hold at the start. -/
theorem tokens_indep (r0 r0' : Nat → Int) (w0 w0' : List Int) (input : List (Fin 256)) :
    tokens r0 w0 input = tokens r0' w0' input :=
  (scan_sim r0 r0' w0 w0' input).2.2.2.1

/-! ## Runs of non-whitespace characters -/

/-- After the loop has read a run of characters that are neither whitespace nor
byte `0xFF`, starting with `process` set, the run has been appended to the
accumulator and nothing has been printed. -/
theorem loop_run (s : State) (xs : List (Fin 256)) (hp : s.process ≠ 0)
    (hx : ∀ b ∈ xs, b.val ≠ 255 ∧ isspace (toChar (b.val : Int)) = false) :
    (loop s xs).idx = s.idx + xs.length ∧ (loop s xs).process = s.process ∧
      (loop s xs).out = s.out ∧ (loop s xs).w_buffer = s.w_buffer ∧
      acc (loop s xs) = acc s ++ chars xs ∧
      (loop s xs).writes = s.writes ++ List.range' s.idx xs.length := by
  induction xs generalizing s with
  | nil => simp [loop, chars]
  | cons b rest ih =>
    have hb := hx b (List.mem_cons_self b rest)
    have hrest : ∀ b ∈ rest, b.val ≠ 255 ∧ isspace (toChar (b.val : Int)) = false :=
      fun c hc => hx c (List.mem_cons_of_mem b hc)
    rw [loop_cons_of_ne s b rest hb.1]
    have hs := step_of_char s (toChar (b.val : Int)) hp hb.2
    have hp' : (step s (toChar (b.val : Int))).process ≠ 0 := by rw [hs]; exact hp
    obtain ⟨h1, h2, h3, h4, h5, h6⟩ := ih (step s (toChar (b.val : Int))) hp' hrest
    rw [acc_step_of_char s _ hp hb.2] at h5
    refine ⟨?_, ?_, ?_, ?_, ?_, ?_⟩
    · rw [h1, hs]; simp; omega
    · rw [h2, hs]
    · rw [h3, hs]
    · rw [h4, hs]
    · rw [h5]; simp [chars]
    · rw [h6, hs]; simp [List.range']

theorem takeWhile_eq_self_of_forall {α : Type} (p : α → Bool) (l : List α)
    (h : ∀ a ∈ l, p a = true) : l.takeWhile p = l := by
  induction l with
  | nil => rfl
  | cons a l ih =>
    simp [List.takeWhile, h a (List.mem_cons_self a l),
      ih (fun c hc => h c (List.mem_cons_of_mem a hc))]

theorem takeWhile_subset_mem {α : Type} (p : α → Bool) (l : List α) (a : α)
    (h : a ∈ l.takeWhile p) : a ∈ l :=
  (List.takeWhile_sublist p).subset h

/-! ## Invariants of the scan -/

theorem wsFree_step (s : State) (ch : Int)
    (h : WsFree (acc s) ∧ ∀ t ∈ tokensOf s.out, WsFree t) :
    WsFree (acc (step s ch)) ∧ ∀ t ∈ tokensOf (step s ch).out, WsFree t := by
  obtain ⟨ha, ht⟩ := h
  by_cases hp : s.process = 0
  · rw [step_of_pending s ch hp]
    refine ⟨by simpa [acc] using ha, ?_⟩
    simpa [tokensOf_append, tokensOf] using ht
  · cases hc : isspace ch with
    | false =>
      refine ⟨?_, ?_⟩
      · rw [acc_step_of_char s ch hp hc]
        intro c hmem
        rcases List.mem_append.mp hmem with h1 | h1
        · exact ha c h1
        · simp at h1; rw [h1]; exact hc
      · rw [step_of_char s ch hp hc]; exact ht
    | true =>
      rw [step_of_space s ch hp hc]
      refine ⟨by simp [acc, cells, WsFree], ?_⟩
      intro t hmem
      simp only [tokensOf_append, tokensOf, List.mem_append, List.mem_singleton] at hmem
      rcases hmem with h1 | h1
      · exact ht t h1
      · rw [h1]
        exact fun c hcm => ha c (takeWhile_subset_mem _ _ c hcm)

theorem wsFree_flush (s : State)
    (h : WsFree (acc s) ∧ ∀ t ∈ tokensOf s.out, WsFree t) :
    ∀ t ∈ tokensOf (flush s).out, WsFree t := by
  obtain ⟨ha, ht⟩ := h
  by_cases h0 : 0 < s.idx
  · rw [flush_of_pos s h0]
    intro t hmem
    simp only [tokensOf_append, tokensOf, List.mem_append, List.mem_singleton] at hmem
    rcases hmem with h1 | h1
    · exact ht t h1
    · rw [h1]
      exact fun c hcm => ha c (takeWhile_subset_mem _ _ c hcm)
  · rw [flush_of_zero s (by omega)]; exact ht

theorem body_step (s : State) (ch : Int)
    (h : ∃ body, s.out = Line.header :: body ∧ ∀ l ∈ body, l.isBody = true) :
    ∃ body, (step s ch).out = Line.header :: body ∧ ∀ l ∈ body, l.isBody = true := by
  obtain ⟨body, hout, hb⟩ := h
  by_cases hp : s.process = 0
  · rw [step_of_pending s ch hp]
    refine ⟨body ++ [Line.wbuf s.w_buffer], by simp [hout], ?_⟩
    intro l hl
    rcases List.mem_append.mp hl with h1 | h1
    · exact hb l h1
    · simp at h1; rw [h1]; rfl
  · cases hc : isspace ch with
    | false => rw [step_of_char s ch hp hc]; exact ⟨body, hout, hb⟩
    | true =>
      rw [step_of_space s ch hp hc]
      refine ⟨body ++ [Line.token ((acc s).takeWhile (fun c => decide (c ≠ 0)))],
        by simp [hout], ?_⟩
      intro l hl
      rcases List.mem_append.mp hl with h1 | h1
      · exact hb l h1
      · simp at h1; rw [h1]; rfl

theorem body_flush (s : State)
    (h : ∃ body, s.out = Line.header :: body ∧ ∀ l ∈ body, l.isBody = true) :
    ∃ body, (flush s).out = Line.header :: body ∧ ∀ l ∈ body, l.isBody = true := by
  obtain ⟨body, hout, hb⟩ := h
  by_cases h0 : 0 < s.idx
  · rw [flush_of_pos s h0]
    refine ⟨body ++ [Line.token ((acc s).takeWhile (fun c => decide (c ≠ 0)))],
      by simp [hout], ?_⟩
    intro l hl
    rcases List.mem_append.mp hl with h1 | h1
    · exact hb l h1
    · simp at h1; rw [h1]; rfl
  · rw [flush_of_zero s (by omega)]; exact ⟨body, hout, hb⟩

/-! ## Reachable states, splitting the input, and framing -/

theorem reachable_loop (r0 : Nat → Int) (w0 : List Int) (input : List (Fin 256))
    (hb : InBounds (loop (init r0 w0) input)) :
    Reachable (loop (init r0 w0) input) :=
  ⟨r0, w0, input, rfl, hb⟩

/-- A property that holds at the loop entry and is kept by the loop body holds
in every reachable state. -/
theorem reachable_induct (P : State → Prop) (h0 : ∀ r0 w0, P (init r0 w0))
    (hstep : ∀ s ch, P s → P (step s ch)) (s : State) (hs : Reachable s) : P s := by
  obtain ⟨r0, w0, input, rfl, -⟩ := hs
  exact loop_induct P hstep _ input (h0 r0 w0)

theorem flag_step (s : State) (ch : Int)
    (h : (s.process = 0 ∨ s.process = 1) ∧ (s.process = 0 → s.idx = 0)) :
    ((step s ch).process = 0 ∨ (step s ch).process = 1) ∧
      ((step s ch).process = 0 → (step s ch).idx = 0) := by
  obtain ⟨h01, hz⟩ := h
  by_cases hp : s.process = 0
  · rw [step_of_pending s ch hp]; simp
  · cases hc : isspace ch with
    | false =>
      rw [step_of_char s ch hp hc]
      exact ⟨h01, fun h => absurd h hp⟩
    | true => rw [step_of_space s ch hp hc]; simp

/-- While the loop runs, `process` is 0 or 1 and the accumulator is empty while
`process` is 0. -/
theorem loop_flag (r0 : Nat → Int) (w0 : List Int) (input : List (Fin 256)) :
    ((loop (init r0 w0) input).process = 0 ∨ (loop (init r0 w0) input).process = 1) ∧
      ((loop (init r0 w0) input).process = 0 → (loop (init r0 w0) input).idx = 0) :=
  loop_induct
    (fun s => (s.process = 0 ∨ s.process = 1) ∧ (s.process = 0 → s.idx = 0))
    flag_step (init r0 w0) input (by simp [init])

/-- In a reachable state `process` is 0 or 1, and the accumulator is empty
while `process` is 0. -/
theorem reachable_flag (s : State) (hs : Reachable s) :
    (s.process = 0 ∨ s.process = 1) ∧ (s.process = 0 → s.idx = 0) :=
  reachable_induct
    (fun s => (s.process = 0 ∨ s.process = 1) ∧ (s.process = 0 → s.idx = 0))
    (fun _ _ => by simp [init]) flag_step s hs

theorem loop_append (s : State) (xs ys : List (Fin 256)) (hx : ∀ b ∈ xs, b.val ≠ 255) :
    loop s (xs ++ ys) = loop (loop s xs) ys := by
  induction xs generalizing s with
  | nil => rfl
  | cons b rest ih =>
    have hb := hx b (List.mem_cons_self b rest)
    rw [List.cons_append, loop_cons_of_ne s b _ hb, loop_cons_of_ne s b _ hb]
    exact ih _ (fun c hc => hx c (List.mem_cons_of_mem b hc))

/-- The loop body on two states with the same index, flag and accumulator:
these stay the same, and the same tokens are emitted. -/
theorem step_frame (s s' : State) (ch : Int) (hi : s.idx = s'.idx)
    (hp : s.process = s'.process) (ha : acc s = acc s') :
    (step s ch).idx = (step s' ch).idx ∧ (step s ch).process = (step s' ch).process ∧
      acc (step s ch) = acc (step s' ch) ∧
      ∃ ts, tokensOf (step s ch).out = tokensOf s.out ++ ts ∧
        tokensOf (step s' ch).out = tokensOf s'.out ++ ts := by
  by_cases hp0 : s.process = 0
  · have hp0' : s'.process = 0 := hp ▸ hp0
    rw [step_of_pending s ch hp0, step_of_pending s' ch hp0']
    refine ⟨hi, rfl, by simpa [acc] using ha, [], ?_, ?_⟩ <;>
      simp [tokensOf_append, tokensOf]
  · have hp0' : s'.process ≠ 0 := hp ▸ hp0
    cases hc : isspace ch with
    | false =>
      refine ⟨?_, ?_, ?_, [], ?_, ?_⟩
      · rw [step_of_char s ch hp0 hc, step_of_char s' ch hp0' hc]; simp [hi]
      · rw [step_of_char s ch hp0 hc, step_of_char s' ch hp0' hc]; simp [hp]
      · rw [acc_step_of_char s ch hp0 hc, acc_step_of_char s' ch hp0' hc, ha]
      · rw [step_of_char s ch hp0 hc]; simp
      · rw [step_of_char s' ch hp0' hc]; simp
    | true =>
      rw [step_of_space s ch hp0 hc, step_of_space s' ch hp0' hc]
      refine ⟨rfl, rfl, by simp [acc, cells],
        [(acc s).takeWhile (fun c => decide (c ≠ 0))], ?_, ?_⟩
      · simp [tokensOf_append, tokensOf]
      · simp [tokensOf_append, tokensOf, ha]

theorem flush_frame (s s' : State) (hi : s.idx = s'.idx) (ha : acc s = acc s') :
    ∃ ts, tokensOf (flush s).out = tokensOf s.out ++ ts ∧
      tokensOf (flush s').out = tokensOf s'.out ++ ts := by
  by_cases h0 : 0 < s.idx
  · have h0' : 0 < s'.idx := hi ▸ h0
    refine ⟨[(acc s).takeWhile (fun c => decide (c ≠ 0))], ?_, ?_⟩
    · rw [flush_of_pos s h0]; simp [tokensOf_append, tokensOf]
    · rw [flush_of_pos s' h0']; simp [tokensOf_append, tokensOf, ha]
  · refine ⟨[], ?_, ?_⟩
    · rw [flush_of_zero s (by omega)]; simp
    · rw [flush_of_zero s' (by omega)]; simp

/-- The rest of the scan from two states with the same index, flag and
accumulator emits the same further tokens. -/
theorem scan_frame (input : List (Fin 256)) (s s' : State) (hi : s.idx = s'.idx)
    (hp : s.process = s'.process) (ha : acc s = acc s') :
    ∃ ts, tokensOf (flush (loop s input)).out = tokensOf s.out ++ ts ∧
      tokensOf (flush (loop s' input)).out = tokensOf s'.out ++ ts := by
  induction input generalizing s s' with
  | nil => exact flush_frame s s' hi ha
  | cons b rest ih =>
    by_cases hb : b.val = 255
    · rw [loop_cons_of_eq s b rest hb, loop_cons_of_eq s' b rest hb]
      exact flush_frame s s' hi ha
    · rw [loop_cons_of_ne s b rest hb, loop_cons_of_ne s' b rest hb]
      obtain ⟨h1, h2, h3, ts, h4, h5⟩ := step_frame s s' (toChar (b.val : Int)) hi hp ha
      obtain ⟨ts', h6, h7⟩ := ih _ _ h1 h2 h3
      exact ⟨ts ++ ts', by rw [h6, h4, List.append_assoc], by rw [h7, h5, List.append_assoc]⟩

/-- From a state with an empty accumulator and `process` set, the rest of the
scan emits the tokens of a scan of the remaining input from the loop entry. -/
theorem tokens_resume (r0 : Nat → Int) (w0 : List Int) (input : List (Fin 256)) (s : State)
    (hi : s.idx = 0) (hp : s.process = 1) :
    tokensOf (flush (loop s input)).out = tokensOf s.out ++ tokens r0 w0 input := by
  obtain ⟨ts, h1, h2⟩ := scan_frame input s (init r0 w0) (by simp [hi, init])
    (by simp [hp, init]) (by simp [acc, hi, init, cells])
  have h3 : tokens r0 w0 input = ts := by
    simp only [tokens, scan]
    rw [h2]
    simp [init, tokensOf]
  rw [h1, h3]

/-! ## Words, delimiters and the skipped character -/

theorem ne_eof_of_isspace (b : Fin 256) (h : isspace (toChar (b.val : Int)) = true) :
    b.val ≠ 255 := by
  intro hb
  have e : toChar (b.val : Int) = -1 := (toChar_eq_EOF_iff b).mpr hb
  rw [e] at h
  exact absurd h (by decide)

theorem chars_nul_free (xs : List (Fin 256)) (h : ∀ b ∈ xs, b.val ≠ 0) :
    ∀ c ∈ chars xs, decide (c ≠ 0) = true := by
  intro c hc
  simp only [chars, List.mem_map] at hc
  obtain ⟨b, hb, rfl⟩ := hc
  simp only [decide_eq_true_eq]
  exact fun e => h b hb ((toChar_eq_zero_iff b).mp e)

/-- The loop on a word and the delimiter after it, from the loop entry: the
word is printed as a token, and the loop is left with `process = 0`. -/
theorem loop_word_delim (r0 : Nat → Int) (w0 : List Int) (xs : List (Fin 256)) (w : Fin 256)
    (hx : ∀ b ∈ xs, isspace (toChar (b.val : Int)) = false ∧ b.val ≠ 0 ∧ b.val ≠ 255)
    (hw : isspace (toChar (w.val : Int)) = true) :
    (loop (init r0 w0) (xs ++ [w])).idx = 0 ∧
      (loop (init r0 w0) (xs ++ [w])).process = 0 ∧
      (loop (init r0 w0) (xs ++ [w])).out = [Line.header, Line.token (chars xs)] ∧
      (loop (init r0 w0) (xs ++ [w])).w_buffer = w0 ++ chars xs ∧
      (loop (init r0 w0) (xs ++ [w])).writes = List.range' 0 (xs.length + 1) := by
  obtain ⟨h1, h2, h3, h4, h5, h6⟩ := loop_run (init r0 w0) xs (by simp [init])
    (fun b hb => ⟨(hx b hb).2.2, (hx b hb).1⟩)
  have hp : (loop (init r0 w0) xs).process ≠ 0 := by rw [h2]; simp [init]
  have hacc : acc (loop (init r0 w0) xs) = chars xs := by
    rw [h5]; simp [acc, init, cells]
  have htw : (chars xs).takeWhile (fun c => decide (c ≠ 0)) = chars xs :=
    takeWhile_eq_self_of_forall _ _ (chars_nul_free xs (fun b hb => (hx b hb).2.1))
  rw [loop_append _ xs [w] (fun b hb => (hx b hb).2.2),
    loop_cons_of_ne _ w [] (ne_eof_of_isspace w hw), loop,
    step_of_space _ _ hp hw, hacc, htw, h3, h4, h6, h1]
  refine ⟨rfl, rfl, rfl, rfl, ?_⟩
  simp [init, List.range'_concat]

/-- The tokens of a word, a delimiter, one more byte and the rest of the file:
the word, and then the tokens of the rest. -/
theorem tokens_word_sep (r0 : Nat → Int) (w0 : List Int) (xs : List (Fin 256))
    (w c : Fin 256) (ys : List (Fin 256))
    (hx : ∀ b ∈ xs, isspace (toChar (b.val : Int)) = false ∧ b.val ≠ 0 ∧ b.val ≠ 255)
    (hw : isspace (toChar (w.val : Int)) = true) (hc : c.val ≠ 255) :
    tokens r0 w0 (xs ++ w :: c :: ys) = chars xs :: tokens r0 w0 ys := by
  obtain ⟨h1, h2, h3, -, -⟩ := loop_word_delim r0 w0 xs w hx hw
  have hall : ∀ b ∈ xs ++ [w], b.val ≠ 255 := by
    intro b hb
    rcases List.mem_append.mp hb with h | h
    · exact (hx b h).2.2
    · simp at h; rw [h]; exact ne_eof_of_isspace w hw
  have e : xs ++ w :: c :: ys = (xs ++ [w]) ++ c :: ys := by simp
  simp only [tokens, scan]
  rw [e, loop_append _ _ _ hall, loop_cons_of_ne _ c ys hc,
    tokens_resume r0 w0 ys _ (by rw [step_of_pending _ _ h2]; exact h1)
      (by rw [step_of_pending _ _ h2]),
    step_of_pending _ _ h2]
  simp [h3, tokensOf_append, tokensOf, tokens, scan]

/-- The tokens of a word alone: the word, unless it is empty. -/
theorem tokens_word (r0 : Nat → Int) (w0 : List Int) (xs : List (Fin 256))
    (hx : ∀ b ∈ xs, isspace (toChar (b.val : Int)) = false ∧ b.val ≠ 0 ∧ b.val ≠ 255) :
    tokens r0 w0 xs = if xs = [] then [] else [chars xs] := by
  obtain ⟨h1, -, h3, -, h5, -⟩ := loop_run (init r0 w0) xs (by simp [init])
    (fun b hb => ⟨(hx b hb).2.2, (hx b hb).1⟩)
  have hacc : acc (loop (init r0 w0) xs) = chars xs := by
    rw [h5]; simp [acc, init, cells]
  have htw : (chars xs).takeWhile (fun c => decide (c ≠ 0)) = chars xs :=
    takeWhile_eq_self_of_forall _ _ (chars_nul_free xs (fun b hb => (hx b hb).2.1))
  by_cases hnil : xs = []
  · subst hnil
    simp [tokens, scan, loop, flush, init, tokensOf]
  · have hpos : 0 < (loop (init r0 w0) xs).idx := by
      rw [h1]
      have := List.length_pos.mpr hnil
      simp [init]; omega
    have h3' : (loop (init r0 w0) xs).out = [Line.header] := by rw [h3]; rfl
    simp only [tokens, scan, hnil, if_false]
    rw [flush_of_pos _ hpos, hacc, htw]
    simp [h3', tokensOf_append, tokensOf]

/-! ## The `w_buffer:` lines -/

theorem interleaved_snoc (w : List Int) (ts : List (List Int)) (t : List Int) :
    interleaved w (ts ++ [t]) =
      interleaved w ts ++ [Line.token t, Line.wbuf (w ++ ts.flatten ++ t)] := by
  induction ts generalizing w with
  | nil => simp [interleaved]
  | cons a ts ih => simp [interleaved, ih, List.append_assoc]

theorem tokensOf_interleaved (w : List Int) (ts : List (List Int)) :
    tokensOf (interleaved w ts) = ts := by
  induction ts generalizing w with
  | nil => rfl
  | cons a ts ih => simp [interleaved, tokensOf, ih]

/-- The shape of the output while the loop runs: the header, then every token
line directly followed by its `w_buffer:` line, except that the line of the
last token is still missing while `process` is 0. -/
theorem shape_step (w0 : List Int) (s : State) (ch : Int)
    (h : ∃ ts, s.w_buffer = w0 ++ ts.flatten ∧
      ((s.process ≠ 0 ∧ s.out = Line.header :: interleaved w0 ts) ∨
        (s.process = 0 ∧ ∃ ts' t, ts = ts' ++ [t] ∧
          s.out = Line.header :: (interleaved w0 ts' ++ [Line.token t])))) :
    ∃ ts, (step s ch).w_buffer = w0 ++ ts.flatten ∧
      (((step s ch).process ≠ 0 ∧ (step s ch).out = Line.header :: interleaved w0 ts) ∨
        ((step s ch).process = 0 ∧ ∃ ts' t, ts = ts' ++ [t] ∧
          (step s ch).out = Line.header :: (interleaved w0 ts' ++ [Line.token t]))) := by
  obtain ⟨ts, hw, hshape⟩ := h
  rcases hshape with ⟨hp, hout⟩ | ⟨hp, ts', t, hts, hout⟩
  · cases hc : isspace ch with
    | false =>
      rw [step_of_char s ch hp hc]
      exact ⟨ts, hw, Or.inl ⟨hp, hout⟩⟩
    | true =>
      rw [step_of_space s ch hp hc]
      refine ⟨ts ++ [(acc s).takeWhile (fun c => decide (c ≠ 0))], ?_, Or.inr ⟨rfl, ts, _, rfl, ?_⟩⟩
      · simp [hw, List.append_assoc]
      · simp [hout]
  · rw [step_of_pending s ch hp]
    refine ⟨ts, hw, Or.inl ⟨by simp, ?_⟩⟩
    subst hts
    simp [hout, hw, interleaved_snoc, List.append_assoc]

theorem shape_loop (r0 : Nat → Int) (w0 : List Int) (input : List (Fin 256)) :
    ∃ ts, (loop (init r0 w0) input).w_buffer = w0 ++ ts.flatten ∧
      (((loop (init r0 w0) input).process ≠ 0 ∧
          (loop (init r0 w0) input).out = Line.header :: interleaved w0 ts) ∨
        ((loop (init r0 w0) input).process = 0 ∧ ∃ ts' t, ts = ts' ++ [t] ∧
          (loop (init r0 w0) input).out
            = Line.header :: (interleaved w0 ts' ++ [Line.token t]))) :=
  loop_induct
    (fun s => ∃ ts, s.w_buffer = w0 ++ ts.flatten ∧
      ((s.process ≠ 0 ∧ s.out = Line.header :: interleaved w0 ts) ∨
        (s.process = 0 ∧ ∃ ts' t, ts = ts' ++ [t] ∧
          s.out = Line.header :: (interleaved w0 ts' ++ [Line.token t]))))
    (shape_step w0) (init r0 w0) input
    ⟨[], by simp [init], Or.inl ⟨by simp [init], by simp [init, interleaved]⟩⟩

/-- The output of the whole scan: the header, the token lines of the loop each
directly followed by its `w_buffer:` line, and at the end at most one token
line without such a line. -/
theorem shape_scan (r0 : Nat → Int) (w0 : List Int) (input : List (Fin 256)) :
    ∃ ts tail, (scan r0 w0 input).out = Line.header :: (interleaved w0 ts ++ tail) ∧
      (tail = [] ∨ ∃ t, tail = [Line.token t]) := by
  obtain ⟨ts, -, hshape⟩ := shape_loop r0 w0 input
  rcases hshape with ⟨hp, hout⟩ | ⟨hp, ts', t, hts, hout⟩
  · by_cases h0 : 0 < (loop (init r0 w0) input).idx
    · refine ⟨ts, [Line.token ((acc (loop (init r0 w0) input)).takeWhile
        (fun c => decide (c ≠ 0)))], ?_, Or.inr ⟨_, rfl⟩⟩
      simp only [scan]
      rw [flush_of_pos _ h0]
      simp [hout]
    · refine ⟨ts, [], ?_, Or.inl rfl⟩
      simp only [scan]
      rw [flush_of_zero _ (by omega)]
      simp [hout]
  · have hz := (loop_flag r0 w0 input).2 hp
    refine ⟨ts', [Line.token t], ?_, Or.inr ⟨t, rfl⟩⟩
    simp only [scan]
    rw [flush_of_zero _ hz]
    exact hout

/-- In a list of token lines each directly followed by its `w_buffer:` line,
and then some lines that are not `w_buffer:` lines, every `w_buffer:` line
shows `w` and the tokens of the lines before it. -/
theorem wbuf_of_interleaved (ts : List (List Int)) (w : List Int) (tail pre post : List Line)
    (x : List Int) (htail : ∀ y, Line.wbuf y ∉ tail)
    (h : interleaved w ts ++ tail = pre ++ Line.wbuf x :: post) :
    x = w ++ (tokensOf pre).flatten ∧ ∃ pre' t, pre = pre' ++ [Line.token t] := by
  induction ts generalizing w pre with
  | nil =>
    simp only [interleaved, List.nil_append] at h
    exact absurd (h ▸ List.mem_append_right pre (List.mem_cons_self _ _)) (htail x)
  | cons a ts ih =>
    simp only [interleaved, List.cons_append] at h
    match pre, h with
    | [], h => simp at h
    | [l], h =>
      simp only [List.cons_append, List.nil_append, List.cons.injEq, Line.wbuf.injEq] at h
      obtain ⟨h1, h2, -⟩ := h
      subst h1
      exact ⟨by simp [tokensOf, h2.symm], [], a, rfl⟩
    | l1 :: l2 :: pre', h =>
      simp only [List.cons_append, List.cons.injEq] at h
      obtain ⟨h1, h2, h3⟩ := h
      obtain ⟨e, pre'', t, hp⟩ := ih (w ++ a) pre' h3
      subst h1 h2 hp
      exact ⟨by simp [tokensOf, e, List.append_assoc], _ :: _ :: pre'', t, rfl⟩

/-- A delimiter that ends a token and one more byte that the loop reads: the
`Token:` line is printed and, directly after it, one `w_buffer:` line that
shows what `w_buffer` held at the start and then all tokens emitted so far. -/
theorem wbuf_line_after_delimiter (r0 : Nat → Int) (w0 : List Int) (pre : List (Fin 256))
    (w c : Fin 256) (hpre : ∀ b ∈ pre, b.val ≠ 255)
    (hp : (loop (init r0 w0) pre).process ≠ 0)
    (hw : isspace (toChar (w.val : Int)) = true) (hc : c.val ≠ 255) :
    (loop (init r0 w0) (pre ++ [w, c])).out
      = (loop (init r0 w0) pre).out ++
        [Line.token ((acc (loop (init r0 w0) pre)).takeWhile (fun c => decide (c ≠ 0))),
          Line.wbuf (w0 ++ (tokensOf (loop (init r0 w0) pre).out).flatten ++
            (acc (loop (init r0 w0) pre)).takeWhile (fun c => decide (c ≠ 0)))] := by
  obtain ⟨ts, hwb, hshape⟩ := shape_loop r0 w0 pre
  have hts : tokensOf (loop (init r0 w0) pre).out = ts := by
    rcases hshape with ⟨-, hout⟩ | ⟨hp0, -⟩
    · rw [hout]; simp [tokensOf, tokensOf_interleaved]
    · exact absurd hp0 hp
  rw [loop_append _ pre _ hpre, loop_cons_of_ne _ w _ (ne_eof_of_isspace w hw),
    loop_cons_of_ne _ c _ hc, loop, step_of_space _ _ hp hw, step_of_pending _ _ rfl, hts, hwb]
  simp

/-! ## The indices of the stores into `r_buffer` -/

theorem runsWithin_le (n : Nat) (cs : List Int) (k : Nat) (h : runsWithin n k cs = true) :
    k ≤ n := by
  induction cs generalizing k with
  | nil => simpa [runsWithin] using h
  | cons c cs ih =>
    cases hc : isspace c with
    | false =>
      simp only [runsWithin, hc] at h
      have := ih (k + 1) (by simpa using h)
      omega
    | true =>
      simp only [runsWithin, hc, if_true, Bool.and_eq_true, decide_eq_true_eq] at h
      exact h.1

theorem runsWithin_mono (n : Nat) (cs : List Int) (k k' : Nat) (hk : k' ≤ k)
    (h : runsWithin n k cs = true) : runsWithin n k' cs = true := by
  induction cs generalizing k k' with
  | nil =>
    simp only [runsWithin, decide_eq_true_eq] at h ⊢
    omega
  | cons c cs ih =>
    cases hc : isspace c with
    | false =>
      simp only [runsWithin, hc] at h ⊢
      exact ih (k + 1) (k' + 1) (by omega) (by simpa using h)
    | true =>
      simp only [runsWithin, hc, if_true, Bool.and_eq_true, decide_eq_true_eq] at h ⊢
      exact ⟨by omega, h.2⟩

theorem runsWithin_tail (n : Nat) (c : Int) (cs : List Int) (k : Nat)
    (h : runsWithin n k (c :: cs) = true) : runsWithin n 0 cs = true := by
  cases hc : isspace c with
  | false =>
    simp only [runsWithin, hc] at h
    exact runsWithin_mono n cs (k + 1) 0 (by omega) (by simpa using h)
  | true =>
    simp only [runsWithin, hc, if_true, Bool.and_eq_true] at h
    exact h.2

/-- The recursive test agrees with the pieces between whitespace characters:
it holds when the first piece, with `k` characters before it, and all later
pieces have at most `n` characters. -/
theorem runsWithin_of_splitOnP (n : Nat) (cs : List Int) (k : Nat) (hd : List Int)
    (tl : List (List Int)) (hsplit : cs.splitOnP isspace = hd :: tl)
    (hhd : k + hd.length ≤ n) (htl : ∀ r ∈ tl, r.length ≤ n) :
    runsWithin n k cs = true := by
  induction cs generalizing k hd tl with
  | nil =>
    simp only [List.splitOnP_nil, List.cons.injEq] at hsplit
    obtain ⟨h1, -⟩ := hsplit
    subst h1
    simpa [runsWithin] using hhd
  | cons c cs ih =>
    obtain ⟨hd', tl', e⟩ := List.exists_cons_of_ne_nil (List.splitOnP_ne_nil isspace cs)
    rw [List.splitOnP_cons, e] at hsplit
    cases hc : isspace c with
    | false =>
      simp only [hc, Bool.false_eq_true, if_false, List.modifyHead_cons, List.cons.injEq] at hsplit
      obtain ⟨h1, h2⟩ := hsplit
      subst h1 h2
      simp only [runsWithin, hc, Bool.false_eq_true, if_false]
      exact ih (k + 1) hd' tl' e (by simp at hhd; omega) htl
    | true =>
      simp only [hc, if_true, List.cons.injEq] at hsplit
      obtain ⟨h1, h2⟩ := hsplit
      subst h1 h2
      simp only [runsWithin, hc, if_true, Bool.and_eq_true, decide_eq_true_eq]
      refine ⟨by simpa using hhd, ih 0 hd' tl' e ?_ ?_⟩
      · have := htl hd' (List.mem_cons_self _ _)
        omega
      · exact fun r hr => htl r (List.mem_cons_of_mem _ hr)

theorem runsWithin_of_maximalRuns (n : Nat) (cs : List Int)
    (h : ∀ r ∈ maximalRuns cs, r.length ≤ n) : runsWithin n 0 cs = true := by
  obtain ⟨hd, tl, e⟩ := List.exists_cons_of_ne_nil (List.splitOnP_ne_nil isspace cs)
  have hall : ∀ r ∈ cs.splitOnP isspace, r.length ≤ n := by
    intro r hr
    by_cases hne : r = []
    · simp [hne]
    · apply h r
      simp only [maximalRuns, List.mem_filter]
      refine ⟨hr, ?_⟩
      cases r with
      | nil => exact absurd rfl hne
      | cons a r => rfl
  rw [e] at hall
  refine runsWithin_of_splitOnP n cs 0 hd tl e ?_ (fun r hr => hall r (List.mem_cons_of_mem _ hr))
  have := hall hd (List.mem_cons_self _ _)
  omega

/-- When the runs of the bytes still unread are short enough, counting the
accumulated characters with the first of them, every store into `r_buffer`
up to the end of the scan has an index below `n + 1`. -/
theorem writes_bounded (n : Nat) (input : List (Fin 256)) (s : State)
    (hflag : s.process = 0 → s.idx = 0)
    (hruns : runsWithin n s.idx (chars input) = true)
    (hw : ∀ i ∈ s.writes, i < n + 1) :
    ∀ i ∈ (flush (loop s input)).writes, i < n + 1 := by
  have hflush : ∀ s : State, s.idx ≤ n → (∀ i ∈ s.writes, i < n + 1) →
      ∀ i ∈ (flush s).writes, i < n + 1 := by
    intro s hidx hw
    by_cases h0 : 0 < s.idx
    · rw [flush_of_pos s h0]
      intro i hi
      simp only [List.mem_append, List.mem_singleton] at hi
      rcases hi with h | h
      · exact hw i h
      · omega
    · rw [flush_of_zero s (by omega)]; exact hw
  induction input generalizing s with
  | nil => exact hflush s (runsWithin_le n _ _ hruns) hw
  | cons b rest ih =>
    have hidx := runsWithin_le n _ _ hruns
    by_cases hb : b.val = 255
    · rw [loop_cons_of_eq s b rest hb]; exact hflush s hidx hw
    · rw [loop_cons_of_ne s b rest hb]
      have hchars : chars (b :: rest) = toChar (b.val : Int) :: chars rest := rfl
      rw [hchars] at hruns
      by_cases hp : s.process = 0
      · apply ih
        · rw [step_of_pending s _ hp]; simp
        · rw [step_of_pending s _ hp]
          have := runsWithin_tail n _ _ _ hruns
          simpa [hflag hp] using this
        · rw [step_of_pending s _ hp]; exact hw
      · cases hc : isspace (toChar (b.val : Int)) with
        | false =>
          apply ih
          · rw [step_of_char s _ hp hc]; exact fun h => absurd h hp
          · rw [step_of_char s _ hp hc]
            simpa [runsWithin, hc] using hruns
          · rw [step_of_char s _ hp hc]
            intro i hi
            simp only [List.mem_append, List.mem_singleton] at hi
            rcases hi with h | h
            · exact hw i h
            · omega
        | true =>
          apply ih
          · rw [step_of_space s _ hp hc]; simp
          · rw [step_of_space s _ hp hc]
            exact runsWithin_tail n _ _ _ hruns
          · rw [step_of_space s _ hp hc]
            intro i hi
            simp only [List.mem_append, List.mem_singleton] at hi
            rcases hi with h | h
            · exact hw i h
            · omega

/-! ## Inputs made of whitespace only, and words two separators apart -/

theorem tokens_spaces_aux (input : List (Fin 256))
    (h : ∀ b ∈ input, isspace (toChar (b.val : Int)) = true) (s : State) (hi : s.idx = 0) :
    (s.process ≠ 0 → tokensOf (flush (loop s input)).out
        = tokensOf s.out ++ List.replicate ((input.length + 1) / 2) []) ∧
      (s.process = 0 → tokensOf (flush (loop s input)).out
        = tokensOf s.out ++ List.replicate (input.length / 2) []) := by
  induction input generalizing s with
  | nil =>
    simp only [loop]
    rw [flush_of_zero s hi]
    simp
  | cons b rest ih =>
    have hb := h b (List.mem_cons_self b rest)
    have hrest : ∀ c ∈ rest, isspace (toChar (c.val : Int)) = true :=
      fun c hc => h c (List.mem_cons_of_mem b hc)
    rw [loop_cons_of_ne s b rest (ne_eof_of_isspace b hb)]
    constructor
    · intro hp
      have hs := step_of_space s _ hp hb
      have h2 := (ih hrest (step s (toChar (b.val : Int))) (by rw [hs])).2 (by rw [hs])
      rw [h2, hs]
      have e : (rest.length + 1 + 1) / 2 = rest.length / 2 + 1 := by omega
      simp [tokensOf_append, tokensOf, acc_of_idx_zero s hi, e, List.replicate_succ]
    · intro hp
      have hs := step_of_pending s (toChar (b.val : Int)) hp
      have h1 := (ih hrest (step s (toChar (b.val : Int))) (by rw [hs]; exact hi)).1
        (by rw [hs]; simp)
      rw [h1, hs]
      simp [tokensOf_append, tokensOf]

theorem loop_run_cats (s : State) (xs : List (Fin 256)) (hp : s.process ≠ 0)
    (hx : ∀ b ∈ xs, b.val ≠ 255 ∧ isspace (toChar (b.val : Int)) = false) :
    (loop s xs).cats = s.cats := by
  induction xs generalizing s with
  | nil => rfl
  | cons b rest ih =>
    have hb := hx b (List.mem_cons_self b rest)
    rw [loop_cons_of_ne s b rest hb.1]
    have hs := step_of_char s (toChar (b.val : Int)) hp hb.2
    rw [ih _ (by rw [hs]; exact hp) (fun c hc => hx c (List.mem_cons_of_mem b hc)), hs]

/-- The accesses of the loop on a word and the delimiter after it, from the
loop entry: one `strcat`, of the word onto what `w_buffer` held. -/
theorem loop_word_delim_cats (r0 : Nat → Int) (w0 : List Int) (xs : List (Fin 256))
    (w : Fin 256)
    (hx : ∀ b ∈ xs, isspace (toChar (b.val : Int)) = false ∧ b.val ≠ 0 ∧ b.val ≠ 255)
    (hw : isspace (toChar (w.val : Int)) = true) :
    (loop (init r0 w0) (xs ++ [w])).cats = [w0.length + xs.length + 1] := by
  have hx' : ∀ b ∈ xs, b.val ≠ 255 ∧ isspace (toChar (b.val : Int)) = false :=
    fun b hb => ⟨(hx b hb).2.2, (hx b hb).1⟩
  obtain ⟨-, h2, -, h4, h5, -⟩ := loop_run (init r0 w0) xs (by simp [init]) hx'
  have h7 := loop_run_cats (init r0 w0) xs (by simp [init]) hx'
  have hp : (loop (init r0 w0) xs).process ≠ 0 := by rw [h2]; simp [init]
  have hacc : acc (loop (init r0 w0) xs) = chars xs := by
    rw [h5]; simp [acc, init, cells]
  have htw : (chars xs).takeWhile (fun c => decide (c ≠ 0)) = chars xs :=
    takeWhile_eq_self_of_forall _ _ (chars_nul_free xs (fun b hb => (hx b hb).2.1))
  rw [loop_append _ xs [w] (fun b hb => (hx b hb).2.2),
    loop_cons_of_ne _ w [] (ne_eof_of_isspace w hw), loop,
    step_of_space _ _ hp hw, hacc, htw, h4, h7]
  simp [init, chars]

/-- The loop body on two states with the same index, flag and accumulator,
whose `w_buffer` strings differ in length by `k`: the same stores into
`r_buffer`, and the same `strcat` calls, each needing `k` cells more. -/
theorem step_frame_logs (s s' : State) (ch : Int) (k : Nat) (hi : s.idx = s'.idx)
    (hp : s.process = s'.process) (ha : acc s = acc s')
    (hw : s.w_buffer.length = s'.w_buffer.length + k) :
    (step s ch).w_buffer.length = (step s' ch).w_buffer.length + k ∧
      ∃ dw dc, (step s ch).writes = s.writes ++ dw ∧ (step s' ch).writes = s'.writes ++ dw ∧
        (step s ch).cats = s.cats ++ dc.map (fun n => n + k) ∧
        (step s' ch).cats = s'.cats ++ dc := by
  by_cases hp0 : s.process = 0
  · have hp0' : s'.process = 0 := hp ▸ hp0
    rw [step_of_pending s ch hp0, step_of_pending s' ch hp0']
    exact ⟨hw, [], [], by simp, by simp, by simp, by simp⟩
  · have hp0' : s'.process ≠ 0 := hp ▸ hp0
    cases hc : isspace ch with
    | false =>
      rw [step_of_char s ch hp0 hc, step_of_char s' ch hp0' hc]
      exact ⟨hw, [s.idx], [], rfl, by simp [hi], by simp, by simp⟩
    | true =>
      rw [step_of_space s ch hp0 hc, step_of_space s' ch hp0' hc]
      refine ⟨by simp [hw, ha]; omega, [s.idx],
        [s'.w_buffer.length + ((acc s').takeWhile (fun c => decide (c ≠ 0))).length + 1],
        rfl, by simp [hi], ?_, rfl⟩
      simp [hw, ha]
      omega

theorem flush_frame_logs (s s' : State) (hi : s.idx = s'.idx) :
    ∃ dw, (flush s).writes = s.writes ++ dw ∧ (flush s').writes = s'.writes ++ dw ∧
      (flush s).cats = s.cats ∧ (flush s').cats = s'.cats := by
  by_cases h0 : 0 < s.idx
  · have h0' : 0 < s'.idx := hi ▸ h0
    rw [flush_of_pos s h0, flush_of_pos s' h0']
    exact ⟨[s.idx], rfl, by simp [hi], rfl, rfl⟩
  · rw [flush_of_zero s (by omega), flush_of_zero s' (by omega)]
    exact ⟨[], by simp, by simp, rfl, rfl⟩

/-- The rest of the scan from two states with the same index, flag and
accumulator, whose `w_buffer` strings differ in length by `k`: the same
further stores into `r_buffer`, and the same further `strcat` calls, each
needing `k` cells more. -/
theorem scan_frame_logs (input : List (Fin 256)) (s s' : State) (k : Nat)
    (hi : s.idx = s'.idx) (hp : s.process = s'.process) (ha : acc s = acc s')
    (hw : s.w_buffer.length = s'.w_buffer.length + k) :
    ∃ dw dc, (flush (loop s input)).writes = s.writes ++ dw ∧
      (flush (loop s' input)).writes = s'.writes ++ dw ∧
      (flush (loop s input)).cats = s.cats ++ dc.map (fun n => n + k) ∧
      (flush (loop s' input)).cats = s'.cats ++ dc := by
  induction input generalizing s s' with
  | nil =>
    obtain ⟨dw, h1, h2, h3, h4⟩ := flush_frame_logs s s' hi
    exact ⟨dw, [], h1, h2, by simpa using h3, by simpa using h4⟩
  | cons b rest ih =>
    by_cases hb : b.val = 255
    · rw [loop_cons_of_eq s b rest hb, loop_cons_of_eq s' b rest hb]
      obtain ⟨dw, h1, h2, h3, h4⟩ := flush_frame_logs s s' hi
      exact ⟨dw, [], h1, h2, by simpa using h3, by simpa using h4⟩
    · rw [loop_cons_of_ne s b rest hb, loop_cons_of_ne s' b rest hb]
      obtain ⟨h1, h2, h3, -⟩ := step_frame s s' (toChar (b.val : Int)) hi hp ha
      obtain ⟨h4, dw, dc, h5, h6, h7, h8⟩ :=
        step_frame_logs s s' (toChar (b.val : Int)) k hi hp ha hw
      obtain ⟨dw', dc', h9, h10, h11, h12⟩ := ih _ _ h1 h2 h3 h4
      refine ⟨dw ++ dw', dc ++ dc', ?_, ?_, ?_, ?_⟩
      · rw [h9, h5, List.append_assoc]
      · rw [h10, h6, List.append_assoc]
      · rw [h11, h7, List.map_append, List.append_assoc]
      · rw [h12, h8, List.append_assoc]

/-- The accesses made up to a state of the loop are among those of the whole
scan: when the scan is inside both arrays, so was the loop up to there. -/
theorem inBounds_before (input : List (Fin 256)) (s : State)
    (hb : InBounds (flush (loop s input))) : InBounds s := by
  obtain ⟨dw, dc, h1, -, h3, -⟩ := scan_frame_logs input s s 0 rfl rfl rfl rfl
  obtain ⟨hw, hc⟩ := hb
  rw [h1] at hw
  rw [h3] at hc
  exact ⟨fun i hi => hw i (List.mem_append_left _ hi),
    fun n hn => hc n (List.mem_append_left _ hn)⟩

/-- From a state with an empty accumulator and `process` set, the rest of the
scan makes the accesses of a scan of the remaining input from the loop entry,
with `w_buffer` holding at least as much: when the former is inside both
arrays, so is the latter. -/
theorem inBounds_resume (r0 : Nat → Int) (w0 : List Int) (input : List (Fin 256)) (s : State)
    (hi : s.idx = 0) (hp : s.process = 1) (k : Nat)
    (hw : s.w_buffer.length = w0.length + k) (hb : InBounds (flush (loop s input))) :
    InBounds (scan r0 w0 input) := by
  obtain ⟨dw, dc, h1, h2, h3, h4⟩ := scan_frame_logs input s (init r0 w0) k
    (by simp [hi, init]) (by simp [hp, init]) (by simp [acc, hi, init, cells])
    (by simpa [init] using hw)
  obtain ⟨hbw, hbc⟩ := hb
  rw [h1] at hbw
  rw [h3] at hbc
  refine ⟨?_, ?_⟩
  · intro i hi'
    simp only [scan] at hi'
    rw [h2] at hi'
    simp only [init, List.nil_append] at hi'
    exact hbw i (List.mem_append_right _ hi')
  · intro n hn
    simp only [scan] at hn
    rw [h4] at hn
    simp only [init, List.nil_append] at hn
    have := hbc (n + k) (List.mem_append_right _ (List.mem_map.mpr ⟨n, hn, rfl⟩))
    omega

/-- While the loop runs, `w_buffer` holds what it held at the start and then
the tokens emitted so far, and no `strcat` so far needed more cells than
that string and its NUL. -/
theorem wbuf_step (w0 : List Int) (s : State) (ch : Int)
    (h : s.w_buffer = w0 ++ (tokensOf s.out).flatten ∧
      ∀ n ∈ s.cats, n ≤ s.w_buffer.length + 1) :
    (step s ch).w_buffer = w0 ++ (tokensOf (step s ch).out).flatten ∧
      ∀ n ∈ (step s ch).cats, n ≤ (step s ch).w_buffer.length + 1 := by
  obtain ⟨hw, hc⟩ := h
  by_cases hp : s.process = 0
  · rw [step_of_pending s ch hp]
    exact ⟨by simpa [tokensOf_append, tokensOf] using hw, hc⟩
  · cases hcs : isspace ch with
    | false => rw [step_of_char s ch hp hcs]; exact ⟨hw, hc⟩
    | true =>
      rw [step_of_space s ch hp hcs]
      refine ⟨by simp [tokensOf_append, tokensOf, hw], ?_⟩
      intro n hn
      simp only [List.mem_append, List.mem_singleton] at hn
      simp only [List.length_append]
      rcases hn with h1 | h1
      · have := hc n h1
        omega
      · omega

/-- The cells that the `strcat` calls of a scan need: at most those of what
`w_buffer` held at the start, the tokens emitted, and the NUL. -/
theorem cats_le (r0 : Nat → Int) (w0 : List Int) (input : List (Fin 256)) :
    ∀ n ∈ (scan r0 w0 input).cats,
      n ≤ w0.length + ((tokens r0 w0 input).flatten).length + 1 := by
  obtain ⟨hw, hc⟩ := loop_induct
    (fun s => s.w_buffer = w0 ++ (tokensOf s.out).flatten ∧
      ∀ n ∈ s.cats, n ≤ s.w_buffer.length + 1)
    (wbuf_step w0) (init r0 w0) input (by simp [init, tokensOf])
  obtain ⟨ts, h1, -⟩ := flush_frame (loop (init r0 w0) input) (loop (init r0 w0) input) rfl rfl
  obtain ⟨dw, -, -, h3, -⟩ := flush_frame_logs (loop (init r0 w0) input)
    (loop (init r0 w0) input) rfl
  intro n hn
  simp only [scan] at hn
  rw [h3] at hn
  have := hc n hn
  rw [hw] at this
  simp only [tokens, scan]
  rw [h1]
  simp only [List.length_append, List.flatten_append] at this ⊢
  omega

/-- A scan is inside both arrays when every run of non-whitespace characters of
the input has at most 99 characters and what `w_buffer` held at the start
and the tokens emitted have at most 249 characters together. -/
theorem inBounds_of_runs_and_tokens (r0 : Nat → Int) (w0 : List Int) (input : List (Fin 256))
    (hruns : ∀ r ∈ maximalRuns (chars input), r.length ≤ 99)
    (htot : w0.length + ((tokens r0 w0 input).flatten).length ≤ 249) :
    InBounds (scan r0 w0 input) := by
  refine ⟨?_, ?_⟩
  · exact writes_bounded 99 input (init r0 w0) (by simp [init])
      (by simpa [init] using runsWithin_of_maximalRuns 99 _ hruns) (by simp [init])
  · intro n hn
    have := cats_le r0 w0 input n hn
    omega

theorem main_of_inBounds (r0 : Nat → Int) (w0 : List Int) (input : List (Fin 256))
    (hb : InBounds (scan r0 w0 input)) :
    main (some input) r0 w0 = Outcome.exit 0 (scan r0 w0 input).out := by
  simp [main, hb]

theorem main_of_not_inBounds (r0 : Nat → Int) (w0 : List Int) (input : List (Fin 256))
    (hb : ¬ InBounds (scan r0 w0 input)) :
    main (some input) r0 w0 = Outcome.undefined [Line.header] := by
  simp [main, hb]

theorem idx_logged_step (s : State) (ch : Int) (h : 0 < s.idx → s.idx - 1 ∈ s.writes) :
    0 < (step s ch).idx → (step s ch).idx - 1 ∈ (step s ch).writes := by
  by_cases hp : s.process = 0
  · rw [step_of_pending s ch hp]; exact h
  · cases hc : isspace ch with
    | false => rw [step_of_char s ch hp hc]; intro _; simp
    | true => rw [step_of_space s ch hp hc]; intro h0; exact absurd h0 (by simp)

/-- In a reachable state `idx` is at most 100: the last store into `r_buffer`
was at index `idx - 1`, inside the array. -/
theorem reachable_idx_le (s : State) (hs : Reachable s) : s.idx ≤ 100 := by
  have h := reachable_induct (fun s => 0 < s.idx → s.idx - 1 ∈ s.writes)
    (fun _ _ => by simp [init]) idx_logged_step s hs
  obtain ⟨-, -, -, -, hbw, -⟩ := hs
  by_cases h0 : 0 < s.idx
  · have := hbw _ (h h0)
    omega
  · omega

theorem letters_clean (n : Nat) : ∀ b ∈ (List.replicate n 97 : List (Fin 256)),
    b.val ≠ 255 ∧ isspace (toChar (b.val : Int)) = false := by
  intro b hb
  rw [List.eq_of_mem_replicate hb]
  decide

/-- A run of 100 or more bytes that are neither whitespace, NUL nor `0xFF`: the
scan stores at index 100, outside `r_buffer`. -/
theorem scan_run_overflow (r0 : Nat → Int) (w0 : List Int) (xs : List (Fin 256))
    (hx : ∀ b ∈ xs, b.val ≠ 255 ∧ isspace (toChar (b.val : Int)) = false)
    (hlen : 100 ≤ xs.length) :
    100 ∈ (scan r0 w0 xs).writes ∧ ¬ InBounds (scan r0 w0 xs) := by
  obtain ⟨h1, -, -, -, -, h6⟩ := loop_run (init r0 w0) xs (by simp [init]) hx
  have hidx : (loop (init r0 w0) xs).idx = xs.length := by rw [h1]; simp [init]
  have hmem : 100 ∈ (scan r0 w0 xs).writes := by
    simp only [scan]
    rw [flush_of_pos _ (by omega)]
    show 100 ∈ (loop (init r0 w0) xs).writes ++ [(loop (init r0 w0) xs).idx]
    rw [h6, hidx]
    simp only [init, List.nil_append, List.mem_append, List.mem_range'_1, List.mem_singleton]
    omega
  exact ⟨hmem, fun hb => absurd (hb.1 100 hmem) (by omega)⟩

/-- On a scan that stays inside both arrays, every token that `main` prints
consists only of non-whitespace characters. -/
theorem tokens_wsFree_of_inBounds (r0 : Nat → Int) (w0 : List Int) (input : List (Fin 256))
    (hb : InBounds (scan r0 w0 input)) :
    main (some input) r0 w0 = Outcome.exit 0 (scan r0 w0 input).out ∧
      ∀ t ∈ tokensOf (main (some input) r0 w0).lines, ∀ c ∈ t, isspace c = false := by
  have hinit : WsFree (acc (init r0 w0)) ∧ ∀ t ∈ tokensOf (init r0 w0).out, WsFree t := by
    simp [init, acc, cells, WsFree, tokensOf]
  have hloop := loop_induct
    (fun s => WsFree (acc s) ∧ ∀ t ∈ tokensOf s.out, WsFree t)
    wsFree_step (init r0 w0) input hinit
  refine ⟨main_of_inBounds r0 w0 input hb, ?_⟩
  rw [main_of_inBounds r0 w0 input hb]
  exact wsFree_flush _ hloop

/-! ## The lines of the console text -/

theorem text_eq_label (l : Line) : l.text = l.label ++ [10] := by
  cases l with
  | header => decide
  | token t => simp only [Line.text, Line.label]; congr 1
  | wbuf w => simp only [Line.text, Line.label]; congr 1

theorem textLinesFrom_append (l : List Int) (cur rest : List Int) (hl : (10 : Int) ∉ l) :
    textLinesFrom cur (l ++ 10 :: rest) = (cur ++ l) :: textLinesFrom [] rest := by
  induction l generalizing cur with
  | nil => simp [textLinesFrom]
  | cons a l ih =>
    have ha : a ≠ 10 := fun e => hl (e ▸ List.mem_cons_self _ _)
    have hl' : (10 : Int) ∉ l := fun h => hl (List.mem_cons_of_mem _ h)
    have e : textLinesFrom cur (a :: l ++ 10 :: rest)
        = textLinesFrom (cur ++ [a]) (l ++ 10 :: rest) := by
      simp only [List.cons_append, textLinesFrom, ha, if_false]
      rfl
    rw [e, ih (cur ++ [a]) hl']
    simp

/-- When no `printf` call writes a newline character before the one that ends
it, the lines of the console text are what the calls wrote, one line each. -/
theorem textLines_texts (ls : List Line) (h : ∀ l ∈ ls, (10 : Int) ∉ l.label) :
    textLines ((ls.map Line.text).flatten) = ls.map Line.label := by
  induction ls with
  | nil => simp [textLines, textLinesFrom]
  | cons l ls ih =>
    have h1 := h l (List.mem_cons_self _ _)
    have h2 := ih (fun l' hl' => h l' (List.mem_cons_of_mem _ hl'))
    simp only [textLines] at h2 ⊢
    simp only [List.map_cons, List.flatten_cons]
    rw [text_eq_label, List.append_assoc, List.singleton_append,
      textLinesFrom_append _ _ _ h1, h2]
    simp

theorem newline_label_step (s : State) (ch : Int)
    (h : (10 : Int) ∉ s.w_buffer ∧ WsFree (acc s) ∧ ∀ l ∈ s.out, (10 : Int) ∉ l.label) :
    (10 : Int) ∉ (step s ch).w_buffer ∧ WsFree (acc (step s ch)) ∧
      ∀ l ∈ (step s ch).out, (10 : Int) ∉ l.label := by
  obtain ⟨hw, ha, ho⟩ := h
  have htok : (10 : Int) ∉ (acc s).takeWhile (fun c => decide (c ≠ 0)) := by
    intro hm
    have := ha 10 (takeWhile_subset_mem _ _ _ hm)
    exact absurd this (by decide)
  have hT : (10 : Int) ∉ lit "Token: " := by decide
  have hW : (10 : Int) ∉ lit "w_buffer: " := by decide
  by_cases hp : s.process = 0
  · rw [step_of_pending s ch hp]
    refine ⟨hw, by simpa [acc] using ha, ?_⟩
    intro l hl
    rcases List.mem_append.mp hl with h1 | h1
    · exact ho l h1
    · simp only [List.mem_singleton] at h1
      subst h1
      simp only [Line.label, List.mem_append, not_or]
      exact ⟨hW, hw⟩
  · cases hc : isspace ch with
    | false =>
      refine ⟨?_, ?_, ?_⟩
      · rw [step_of_char s ch hp hc]; exact hw
      · rw [acc_step_of_char s ch hp hc]
        intro c hm
        rcases List.mem_append.mp hm with h1 | h1
        · exact ha c h1
        · simp at h1; rw [h1]; exact hc
      · rw [step_of_char s ch hp hc]; exact ho
    | true =>
      rw [step_of_space s ch hp hc]
      refine ⟨?_, by simp [acc, cells, WsFree], ?_⟩
      · simp only [List.mem_append, not_or]
        exact ⟨hw, htok⟩
      · intro l hl
        rcases List.mem_append.mp hl with h1 | h1
        · exact ho l h1
        · simp only [List.mem_singleton] at h1
          subst h1
          simp only [Line.label, List.mem_append, not_or]
          exact ⟨hT, htok⟩

/-- When `w_buffer` holds no newline character at the start, no `printf` call of
the scan writes one before the one that ends it. -/
theorem newline_label_scan (r0 : Nat → Int) (w0 : List Int) (input : List (Fin 256))
    (hnl : (10 : Int) ∉ w0) : ∀ l ∈ (scan r0 w0 input).out, (10 : Int) ∉ l.label := by
  obtain ⟨-, ha, ho⟩ := loop_induct
    (fun s => (10 : Int) ∉ s.w_buffer ∧ WsFree (acc s) ∧ ∀ l ∈ s.out, (10 : Int) ∉ l.label)
    newline_label_step (init r0 w0) input
    ⟨hnl, by simp [init, acc, cells, WsFree], by
      intro l hl
      simp only [init, List.mem_singleton] at hl
      subst hl
      decide⟩
  simp only [scan]
  by_cases h0 : 0 < (loop (init r0 w0) input).idx
  · rw [flush_of_pos _ h0]
    intro l hl
    rcases List.mem_append.mp hl with h1 | h1
    · exact ho l h1
    · simp only [List.mem_singleton] at h1
      subst h1
      simp only [Line.label, List.mem_append, not_or]
      refine ⟨by decide, ?_⟩
      intro hm
      have := ha 10 (takeWhile_subset_mem _ _ _ hm)
      exact absurd this (by decide)
  · rw [flush_of_zero _ (by omega)]; exact ho

/-- Among the lines written by `Token:` and `w_buffer:` calls, those that begin
with `Token: ` are the lines of the tokens. -/
theorem filter_token_labels (ls : List Line) (h : ∀ l ∈ ls, l.isBody = true) :
    (ls.map Line.label).filter (fun l => (lit "Token: ").isPrefixOf l)
      = (tokensOf ls).map (fun t => lit "Token: " ++ t) := by
  have eT : lit "Token: " = [84, 111, 107, 101, 110, 58, 32] := by decide
  have eW : lit "w_buffer: " = [119, 95, 98, 117, 102, 102, 101, 114, 58, 32] := by decide
  induction ls with
  | nil => rfl
  | cons l ls ih =>
    have ih' := ih (fun l' hl' => h l' (List.mem_cons_of_mem _ hl'))
    have hl := h l (List.mem_cons_self _ _)
    cases l with
    | header => simp [Line.isBody] at hl
    | token t =>
      simp only [List.map_cons, tokensOf, Line.label]
      rw [List.filter_cons_of_pos, ih']
      rw [eT]
      simp [List.isPrefixOf]
    | wbuf w =>
      simp only [List.map_cons, tokensOf, Line.label]
      rw [List.filter_cons_of_neg, ih']
      rw [eT, eW]
      simp [List.isPrefixOf]

/-! ## The claims of the specification -/

/-- C1 (the code at the failing input): on the input `"alpha  beta\tgamma\n"` the
scan emits the tokens `alpha`, `beta`, `amma`, whatever the buffers hold at the
start, because the `g` read right after the tab that ended `beta` is consumed
by the `!process` branch; the maximal runs of non-whitespace characters of
that input are `alpha`, `beta`, `gamma`. -/
theorem scan_alpha_beta_gamma (r0 : Nat → Int) (w0 : List Int) :
    tokens r0 w0 (bytes "alpha  beta\tgamma\n") = [lit "alpha", lit "beta", lit "amma"] ∧
      maximalRuns (chars (bytes "alpha  beta\tgamma\n"))
        = [lit "alpha", lit "beta", lit "gamma"] :=
  ⟨(tokens_indep r0 (fun _ => 0) w0 [] _).trans (by decide), by decide⟩

/-- C2 (the code at the failing input): on the input `"  a"` the scan emits an
empty token for the leading whitespace, and then the token `a`: the whitespace
branch prints `r_buffer` without testing `idx > 0`. -/
theorem scan_leading_whitespace (r0 : Nat → Int) (w0 : List Int) :
    tokens r0 w0 (bytes "  a") = [[], lit "a"] :=
  (tokens_indep r0 (fun _ => 0) w0 [] _).trans (by decide)

/-- C3 (the code at the failing input): on the input of three spaces the scan
emits two tokens, both empty. -/
theorem scan_three_spaces (r0 : Nat → Int) (w0 : List Int) :
    tokens r0 w0 (bytes "   ") = [[], []] :=
  (tokens_indep r0 (fun _ => 0) w0 [] _).trans (by decide)

set_option maxRecDepth 8192 in
/-- C4 (counterexample): the empty input has no whitespace character and length
at most 99, and the scan emits no token for it; the three-byte inputs
`a NUL b` and `a 0xFF b` have no whitespace character either, and the single
token emitted for each is `a`, not the entire input. -/
theorem no_whitespace_counterexample :
    (tokens (fun _ => 0) [] [] = [] ∧ tokens (fun _ => 0) [] [] ≠ [chars []]) ∧
    (tokens (fun _ => 0) [] [97, 0, 98] = [[97]] ∧
      (∀ b ∈ ([97, 0, 98] : List (Fin 256)), isspace (toChar (b.val : Int)) = false) ∧
      tokens (fun _ => 0) [] [97, 0, 98] ≠ [chars [97, 0, 98]]) ∧
    (tokens (fun _ => 0) [] [97, 255, 98] = [[97]] ∧
      (∀ b ∈ ([97, 255, 98] : List (Fin 256)), isspace (toChar (b.val : Int)) = false) ∧
      tokens (fun _ => 0) [] [97, 255, 98] ≠ [chars [97, 255, 98]]) := by
  decide

/-- C4 (amended): for every non-empty input of at most 99 bytes, none of which
is a whitespace character, a NUL byte or the byte `0xFF`, the scan emits
exactly one token, equal to the entire input, and every store into `r_buffer`
is within its 100 cells. -/
theorem single_token_of_no_whitespace (r0 : Nat → Int) (w0 : List Int)
    (input : List (Fin 256)) (hne : input ≠ []) (hlen : input.length ≤ 99)
    (hws : ∀ b ∈ input, isspace (toChar (b.val : Int)) = false)
    (hbyte : ∀ b ∈ input, b.val ≠ 0 ∧ b.val ≠ 255) :
    tokens r0 w0 input = [chars input] ∧ ∀ i ∈ (scan r0 w0 input).writes, i < 100 := by
  have hrun := loop_run (init r0 w0) input (by simp [init])
    (fun b hb => ⟨(hbyte b hb).2, hws b hb⟩)
  obtain ⟨h1, -, h3, -, h5, h6⟩ := hrun
  have h1' : (loop (init r0 w0) input).idx = input.length := by rw [h1]; simp [init]
  have h3' : (loop (init r0 w0) input).out = [Line.header] := by rw [h3]; rfl
  have h6' : (loop (init r0 w0) input).writes = List.range' 0 input.length := by
    rw [h6]; simp [init]
  have hpos : 0 < (loop (init r0 w0) input).idx := by
    rw [h1']
    exact List.length_pos.mpr hne
  have hacc : acc (loop (init r0 w0) input) = chars input := by
    rw [h5]; simp [acc, init, cells]
  have hnz : ∀ c ∈ chars input, decide (c ≠ 0) = true := by
    intro c hc
    simp only [chars, List.mem_map] at hc
    obtain ⟨b, hb, rfl⟩ := hc
    have := (hbyte b hb).1
    simp only [decide_eq_true_eq]
    exact fun e => this ((toChar_eq_zero_iff b).mp e)
  constructor
  · simp only [tokens, scan]
    rw [flush_of_pos _ hpos, hacc, takeWhile_eq_self_of_forall _ _ hnz]
    simp [h3', tokensOf_append, tokensOf]
  · simp only [scan]
    rw [flush_of_pos _ hpos]
    intro i hi
    simp only [h6', h1', List.mem_append, List.mem_singleton, List.mem_range'_1] at hi
    omega

set_option maxRecDepth 8192 in
/-- C4 (witness): the amended claim at the input `hello`. -/
theorem single_token_of_no_whitespace_witness :
    tokens (fun _ => 0) [] (bytes "hello") = [chars (bytes "hello")] ∧
      ∀ i ∈ (scan (fun _ => 0) [] (bytes "hello")).writes, i < 100 :=
  single_token_of_no_whitespace (fun _ => 0) [] (bytes "hello") (by decide) (by decide)
    (by decide) (by decide)

/-- C5 (the code at the failing input): the scan of `"a  b"` emits `a`, `b`;
these tokens joined by one space are the text `"a b"`, and the scan of that
text emits `a` only. -/
theorem resplit_a_b (r0 r1 : Nat → Int) (w0 w1 : List Int) :
    tokens r0 w0 (bytes "a  b") = [lit "a", lit "b"] ∧
      rejoin [lit "a", lit "b"] = bytes "a b" ∧
      tokens r1 w1 (rejoin [lit "a", lit "b"]) = [lit "a"] :=
  ⟨(tokens_indep r0 (fun _ => 0) w0 [] _).trans (by decide), by decide,
    (tokens_indep r1 (fun _ => 0) w1 [] _).trans (by decide)⟩

/-- C6 (the code at the failing input): on the input of 112 letters `a` and a
space the scan stores into `r_buffer` at the indices 100 to 112, outside the
array; from the first of these stores on the behaviour of `main` is
undefined, so that nothing is guaranteed of the token it prints. -/
theorem scan_overflow_then_delimiter (r0 : Nat → Int) (w0 : List Int) :
    (scan r0 w0 (List.replicate 112 97 ++ [32])).writes = List.range' 0 113 ∧
      ¬ InBounds (scan r0 w0 (List.replicate 112 97 ++ [32])) ∧
      main (some (List.replicate 112 97 ++ [32])) r0 w0 = Outcome.undefined [Line.header] := by
  have hx : ∀ b ∈ (List.replicate 112 97 : List (Fin 256)),
      isspace (toChar (b.val : Int)) = false ∧ b.val ≠ 0 ∧ b.val ≠ 255 := by
    intro b hb
    rw [List.eq_of_mem_replicate hb]
    decide
  obtain ⟨h1, -, -, -, h5⟩ := loop_word_delim r0 w0 (List.replicate 112 97) 32 hx (by decide)
  have hw : (scan r0 w0 (List.replicate 112 97 ++ [32])).writes = List.range' 0 113 := by
    simp only [scan]
    rw [flush_of_zero _ h1, h5]
    simp
  have hnb : ¬ InBounds (scan r0 w0 (List.replicate 112 97 ++ [32])) := by
    intro hb
    have := hb.1 100 (by rw [hw]; simp)
    omega
  exact ⟨hw, hnb, main_of_not_inBounds r0 w0 _ hnb⟩

set_option maxRecDepth 8192 in
/-- C7 (counterexample): for the readable input `"a b"`, with `w_buffer` empty
at the start, the console shows the header line, the line `Token: a` and a
line `w_buffer: a`, which are not the `Token:` lines of the emitted tokens
alone; with `w_buffer` holding `x`, a newline and `y` at the start, the
console shows the lines `w_buffer: x` and `ya`; and for the input of 112
letters `a` the scan stores outside `r_buffer` and the behaviour of `main` is
undefined. -/
theorem console_output_a_b :
    ((main (some (bytes "a b")) (fun _ => 0) []).lines
        = [Line.header, Line.token (lit "a"), Line.wbuf (lit "a")] ∧
      tokens (fun _ => 0) [] (bytes "a b") = [lit "a"] ∧
      textLines (main (some (bytes "a b")) (fun _ => 0) []).console
        = [lit "Processing tokens:", lit "Token: a", lit "w_buffer: a"]) ∧
    textLines (main (some (bytes "a b")) (fun _ => 0) (lit "x\ny")).console
        = [lit "Processing tokens:", lit "Token: a", lit "w_buffer: x", lit "ya"] ∧
    main (some (List.replicate 112 97)) (fun _ => 0) [] = Outcome.undefined [Line.header] :=
  ⟨by decide, by decide,
    main_of_not_inBounds _ _ _
      (scan_run_overflow _ _ (List.replicate 112 97) (letters_clean 112) (by simp)).2⟩

/-- C7 (amended): for every readable input on which the scan stays inside
`r_buffer` and `w_buffer`, when `w_buffer` holds no newline character at the
start: the first line on the console is the header `Processing tokens:`;
every line after it is a line `Token: <token>` or a line `w_buffer: <text>`;
and the lines that begin with `Token: ` are, in order, one per emitted token,
the line of the token. -/
theorem console_output_shape (r0 : Nat → Int) (w0 : List Int) (input : List (Fin 256))
    (hb : InBounds (scan r0 w0 input)) (hnl : (10 : Int) ∉ w0) :
    ∃ body, textLines (main (some input) r0 w0).console = lit "Processing tokens:" :: body ∧
      (∀ l ∈ body, (∃ t, l = lit "Token: " ++ t) ∨ (∃ w, l = lit "w_buffer: " ++ w)) ∧
      body.filter (fun l => (lit "Token: ").isPrefixOf l)
        = (tokens r0 w0 input).map (fun t => lit "Token: " ++ t) := by
  have hinit : ∃ body, (init r0 w0).out = Line.header :: body ∧ ∀ l ∈ body, l.isBody = true :=
    ⟨[], rfl, by simp⟩
  have hloop := loop_induct
    (fun s => ∃ body, s.out = Line.header :: body ∧ ∀ l ∈ body, l.isBody = true)
    body_step (init r0 w0) input hinit
  obtain ⟨body, hout, hbody⟩ := body_flush _ hloop
  have hout' : (scan r0 w0 input).out = Line.header :: body := hout
  have hlines : textLines (main (some input) r0 w0).console
      = lit "Processing tokens:" :: body.map Line.label := by
    rw [main_of_inBounds r0 w0 input hb]
    simp only [Outcome.console, Outcome.lines]
    rw [textLines_texts _ (newline_label_scan r0 w0 input hnl), hout']
    rfl
  refine ⟨body.map Line.label, hlines, ?_, ?_⟩
  · intro l hl
    obtain ⟨x, hx, rfl⟩ := List.mem_map.mp hl
    have := hbody x hx
    cases x with
    | header => simp [Line.isBody] at this
    | token t => exact Or.inl ⟨t, rfl⟩
    | wbuf w => exact Or.inr ⟨w, rfl⟩
  · rw [filter_token_labels body hbody]
    simp only [tokens]
    rw [hout']
    rfl

set_option maxRecDepth 8192 in
/-- C7 (witness): the amended claim for the input `"ab  cd\n"` with `w_buffer`
empty at the start. -/
theorem console_output_shape_witness :
    ∃ body, textLines (main (some (bytes "ab  cd\n")) (fun _ => 0) []).console
        = lit "Processing tokens:" :: body ∧
      (∀ l ∈ body, (∃ t, l = lit "Token: " ++ t) ∨ (∃ w, l = lit "w_buffer: " ++ w)) ∧
      body.filter (fun l => (lit "Token: ").isPrefixOf l)
        = (tokens (fun _ => 0) [] (bytes "ab  cd\n")).map (fun t => lit "Token: " ++ t) :=
  console_output_shape (fun _ => 0) [] (bytes "ab  cd\n") (by decide) (by decide)

/-- C8 (the code at the failing input): on the input of 112 letters `a` the scan
stores into `r_buffer` at index 100 and beyond, outside the array, so that
the behaviour of `main` is undefined and no exit code is returned; and for
the empty input `main` prints the header, emits no token and returns 0. -/
theorem main_overflow (r0 : Nat → Int) (w0 : List Int) :
    100 ∈ (scan r0 w0 (List.replicate 112 97)).writes ∧
      main (some (List.replicate 112 97)) r0 w0 = Outcome.undefined [Line.header] ∧
      (main (some (List.replicate 112 97)) r0 w0).code = none ∧
      main (some []) r0 w0 = Outcome.exit 0 [Line.header] := by
  obtain ⟨h1, h2⟩ := scan_run_overflow r0 w0 (List.replicate 112 97) (letters_clean 112)
    (by simp)
  have h3 := main_of_not_inBounds r0 w0 _ h2
  refine ⟨h1, h3, by rw [h3]; rfl, ?_⟩
  exact main_of_inBounds r0 w0 [] (by simp [InBounds, scan, loop, flush, init])

/-- C9 (the code at the failing input): when `fopen` yields no stream, `main`
makes no test of it; it prints the header line and goes on to call `fgetc`
on the null stream, which is undefined behaviour: no error is reported and
no exit code is returned. -/
theorem main_null_stream (r0 : Nat → Int) (w0 : List Int) :
    main none r0 w0 = Outcome.undefined [Line.header] ∧ (main none r0 w0).code = none :=
  ⟨rfl, rfl⟩

set_option maxRecDepth 8192 in
/-- C10 (counterexample): on the input `a NUL b` the loop ends with `idx = 3` and
the accumulated characters `a NUL b`, and the one further token emitted is
`a`, which is not the accumulated characters; and on the input of 100
letters `a` the loop ends with `idx = 100`, so that the final NUL is stored
outside `r_buffer` and what is printed is undefined. -/
theorem flush_nul_counterexample :
    ((loop (init (fun _ => 0) []) [97, 0, 98]).idx = 3 ∧
      acc (loop (init (fun _ => 0) []) [97, 0, 98]) = [97, 0, 98] ∧
      tokensOf (loop (init (fun _ => 0) []) [97, 0, 98]).out = [] ∧
      tokens (fun _ => 0) [] [97, 0, 98] = [[97]]) ∧
    ((loop (init (fun _ => 0) []) (List.replicate 100 97)).idx = 100 ∧
      InBounds (loop (init (fun _ => 0) []) (List.replicate 100 97)) ∧
      ¬ InBounds (scan (fun _ => 0) [] (List.replicate 100 97))) := by
  decide

/-- C10 (amended): for every input on which the scan stays inside `r_buffer`
and `w_buffer`, when the scan loop ends with `idx > 0` the lines printed by
the scan are those printed by the loop and then exactly one further `Token:`
line, whose token is the accumulated characters `r_buffer[0 .. idx-1]` up to
the first NUL among them, hence all of them when none is NUL; when the loop
ends with `idx = 0` nothing further is printed. -/
theorem flush_emits_accumulator (r0 : Nat → Int) (w0 : List Int) (input : List (Fin 256))
    (hb : InBounds (scan r0 w0 input)) :
    main (some input) r0 w0 = Outcome.exit 0 (scan r0 w0 input).out ∧
    (scan r0 w0 input).out =
      if 0 < (loop (init r0 w0) input).idx then
        (loop (init r0 w0) input).out ++
          [Line.token
            (if (0 : Int) ∈ acc (loop (init r0 w0) input) then
              (acc (loop (init r0 w0) input)).takeWhile (fun c => decide (c ≠ 0))
            else acc (loop (init r0 w0) input))]
      else (loop (init r0 w0) input).out := by
  refine ⟨main_of_inBounds r0 w0 input hb, ?_⟩
  by_cases h : 0 < (loop (init r0 w0) input).idx
  · simp only [scan, h, if_true]
    rw [flush_of_pos _ h]
    by_cases h0 : (0 : Int) ∈ acc (loop (init r0 w0) input)
    · simp [h0]
    · rw [if_neg h0, takeWhile_eq_self_of_forall]
      intro c hc
      simp only [decide_eq_true_eq]
      exact fun e => h0 (e ▸ hc)
  · simp only [scan, h, if_false]
    rw [flush_of_zero _ (by omega)]

set_option maxRecDepth 8192 in
/-- C10 (witness): the amended claim for the input `"ab cd"`, which ends with
the accumulator `cd`. -/
theorem flush_emits_accumulator_witness :
    main (some (bytes "ab cd")) (fun _ => 0) []
        = Outcome.exit 0 (scan (fun _ => 0) [] (bytes "ab cd")).out ∧
    (scan (fun _ => 0) [] (bytes "ab cd")).out =
      if 0 < (loop (init (fun _ => 0) []) (bytes "ab cd")).idx then
        (loop (init (fun _ => 0) []) (bytes "ab cd")).out ++
          [Line.token
            (if (0 : Int) ∈ acc (loop (init (fun _ => 0) []) (bytes "ab cd")) then
              (acc (loop (init (fun _ => 0) []) (bytes "ab cd"))).takeWhile
                (fun c => decide (c ≠ 0))
            else acc (loop (init (fun _ => 0) []) (bytes "ab cd")))]
      else (loop (init (fun _ => 0) []) (bytes "ab cd")).out :=
  flush_emits_accumulator (fun _ => 0) [] (bytes "ab cd") (by decide)

/-- C11 (the code at the failing input): the state after the loop has read
`"a "` is reachable, with `process = 0` and an empty accumulator; the loop body
on the non-whitespace character `b` leaves the accumulator empty instead of
appending `b`, and the scan of `"a b"` emits the token `a` only, so that `b`
is in no token. -/
theorem step_drops_char_after_delimiter :
    Reachable (loop (init (fun _ => 0) []) (bytes "a ")) ∧
      (loop (init (fun _ => 0) []) (bytes "a ")).process = 0 ∧
      isspace 98 = false ∧
      acc (loop (init (fun _ => 0) []) (bytes "a ")) = [] ∧
      acc (step (loop (init (fun _ => 0) []) (bytes "a ")) 98) = [] ∧
      ∀ r0 w0, tokens r0 w0 (bytes "a b") = [lit "a"] :=
  ⟨reachable_loop _ _ _ (by decide), by decide, by decide, by decide, by decide,
    fun r0 w0 => (tokens_indep r0 (fun _ => 0) w0 [] _).trans (by decide)⟩

set_option maxRecDepth 100000 in
/-- C12 (counterexample): the state after the loop has read `a NUL b` is
reachable and its accumulator is `a NUL b`; on the whitespace character
space the loop body emits the token `a`, which is not the accumulated
characters.  The state after the loop has read 100 letters `a` is reachable
and its accumulator is not empty; on the space the loop body stores the NUL
at index 100, outside `r_buffer`, and what it prints is undefined. -/
theorem step_space_nul_counterexample :
    (Reachable (loop (init (fun _ => 0) []) [97, 0, 98]) ∧
      acc (loop (init (fun _ => 0) []) [97, 0, 98]) = [97, 0, 98] ∧
      isspace 32 = true ∧
      (step (loop (init (fun _ => 0) []) [97, 0, 98]) 32).out
        = (loop (init (fun _ => 0) []) [97, 0, 98]).out ++ [Line.token [97]]) ∧
    (Reachable (loop (init (fun _ => 0) []) (List.replicate 100 97)) ∧
      acc (loop (init (fun _ => 0) []) (List.replicate 100 97)) ≠ [] ∧
      (loop (init (fun _ => 0) []) (List.replicate 100 97)).idx = 100 ∧
      ¬ InBounds (step (loop (init (fun _ => 0) []) (List.replicate 100 97)) 32)) :=
  ⟨⟨reachable_loop _ _ _ (by decide), by decide, by decide, by decide⟩,
    ⟨reachable_loop _ _ _ (by decide), by decide, by decide, by decide⟩⟩

/-- C12 (amended): in every reachable state with a non-empty accumulator of
fewer than 100 characters, when `w_buffer` has room for the token and its
NUL, the loop body on a whitespace character stays inside both arrays and
prints exactly one further line, a `Token:` line whose token is the
accumulated characters up to the first NUL among them, hence all of them
when none is NUL; it leaves the accumulator empty. -/
theorem step_space_emits_accumulator (s : State) (hs : Reachable s) (hne : acc s ≠ [])
    (ch : Int) (hc : isspace ch = true) (hi : s.idx < 100)
    (hroom : s.w_buffer.length + ((acc s).takeWhile (fun c => decide (c ≠ 0))).length < 250) :
    InBounds (step s ch) ∧
      (step s ch).out = s.out ++
        [Line.token (if (0 : Int) ∈ acc s then (acc s).takeWhile (fun c => decide (c ≠ 0))
          else acc s)] ∧
      acc (step s ch) = [] ∧ (step s ch).idx = 0 := by
  have hp : s.process ≠ 0 := by
    intro hp
    exact hne (acc_of_idx_zero s ((reachable_flag s hs).2 hp))
  obtain ⟨-, -, -, -, hbw, hbc⟩ := hs
  rw [step_of_space s ch hp hc]
  refine ⟨⟨?_, ?_⟩, ?_, by simp [acc, cells], rfl⟩
  · intro i hmem
    simp only [List.mem_append, List.mem_singleton] at hmem
    rcases hmem with h | h
    · exact hbw i h
    · omega
  · intro n hmem
    simp only [List.mem_append, List.mem_singleton] at hmem
    rcases hmem with h | h
    · exact hbc n h
    · omega
  · by_cases h0 : (0 : Int) ∈ acc s
    · simp [h0]
    · rw [if_neg h0, takeWhile_eq_self_of_forall]
      intro c hcm
      simp only [decide_eq_true_eq]
      exact fun e => h0 (e ▸ hcm)

set_option maxRecDepth 8192 in
/-- C12 (witness): the amended claim in the state after the loop has read
`"ab"`, on the space character. -/
theorem step_space_emits_accumulator_witness :
    InBounds (step (loop (init (fun _ => 0) []) (bytes "ab")) 32) ∧
      (step (loop (init (fun _ => 0) []) (bytes "ab")) 32).out
        = (loop (init (fun _ => 0) []) (bytes "ab")).out ++
          [Line.token (if (0 : Int) ∈ acc (loop (init (fun _ => 0) []) (bytes "ab"))
            then (acc (loop (init (fun _ => 0) []) (bytes "ab"))).takeWhile
              (fun c => decide (c ≠ 0))
            else acc (loop (init (fun _ => 0) []) (bytes "ab")))] ∧
      acc (step (loop (init (fun _ => 0) []) (bytes "ab")) 32) = [] ∧
      (step (loop (init (fun _ => 0) []) (bytes "ab")) 32).idx = 0 :=
  step_space_emits_accumulator _ (reachable_loop _ _ _ (by decide)) (by decide) 32 (by decide)
    (by decide) (by decide)

set_option maxRecDepth 100000 in
/-- C13: for every input in which every maximal run of non-whitespace characters
has at most 99 characters, every store into `r_buffer` made by the scan,
character or terminating NUL, has an index below 100; and for the input of 100
letters `a`, which is one run of 100 characters, the scan makes a store at
index 100. -/
theorem stores_within_buffer :
    (∀ r0 w0 input, (∀ r ∈ maximalRuns (chars input), r.length ≤ 99) →
        ∀ i ∈ (scan r0 w0 input).writes, i < 100) ∧
      ∃ input, (∃ r ∈ maximalRuns (chars input), 100 ≤ r.length) ∧
        ∀ r0 w0, ∃ i ∈ (scan r0 w0 input).writes, 100 ≤ i := by
  constructor
  · intro r0 w0 input h
    exact writes_bounded 99 input (init r0 w0) (by simp [init])
      (by simpa [init] using runsWithin_of_maximalRuns 99 _ h) (by simp [init])
  · refine ⟨List.replicate 100 97, ⟨List.replicate 100 97, by decide, by decide⟩, ?_⟩
    intro r0 w0
    obtain ⟨h1, -, -, -, -, -⟩ := loop_run (init r0 w0) (List.replicate 100 97) (by simp [init])
      (by decide)
    have hidx : (loop (init r0 w0) (List.replicate 100 97)).idx = 100 := by
      rw [h1]; simp [init]
    refine ⟨100, ?_, Nat.le_refl _⟩
    simp only [scan]
    rw [flush_of_pos _ (by omega)]
    exact List.mem_append_right _ (List.mem_singleton.mpr hidx.symm)

/-- C13 (witness): the bound on the stores for the input `"ab cd"`. -/
theorem stores_within_buffer_witness :
    (∀ r ∈ maximalRuns (chars (bytes "ab cd")), r.length ≤ 99) ∧
      ∀ i ∈ (scan (fun _ => 0) [] (bytes "ab cd")).writes, i < 100 :=
  ⟨by decide, stores_within_buffer.1 (fun _ => 0) [] (bytes "ab cd") (by decide)⟩

set_option maxRecDepth 1000000 in
/-- C14 (counterexample): with `w_buffer` empty at the start, the scan of
`"a b"` emits the token `a` and prints one `w_buffer:` line, which shows `a`,
the character of that token; and on three words of 99 letters `a`, each
followed by whitespace, the third `strcat` needs 298 cells, more than the
250 of `w_buffer`, so that what is printed after it is undefined. -/
theorem wbuf_line_a_b :
    (tokens (fun _ => 0) [] (bytes "a b") = [lit "a"] ∧
      wbufsOf (scan (fun _ => 0) [] (bytes "a b")).out = [lit "a"] ∧
      (scan (fun _ => 0) [] (bytes "a b")).out
        = [Line.header, Line.token (lit "a"), Line.wbuf (lit "a")]) ∧
    ((scan (fun _ => 0) []
        (List.replicate 99 97 ++ [32, 32] ++ List.replicate 99 97 ++ [32, 32] ++
          List.replicate 99 97 ++ [32])).cats = [100, 199, 298] ∧
      ¬ InBounds (scan (fun _ => 0) []
        (List.replicate 99 97 ++ [32, 32] ++ List.replicate 99 97 ++ [32, 32] ++
          List.replicate 99 97 ++ [32]))) :=
  have hcats : (scan (fun _ => 0) []
      (List.replicate 99 97 ++ [32, 32] ++ List.replicate 99 97 ++ [32, 32] ++
        List.replicate 99 97 ++ [32])).cats = [100, 199, 298] := by decide
  ⟨by decide, hcats, fun hb => absurd (hb.2 298 (by rw [hcats]; simp)) (by omega)⟩

/-- C14 (amended): for every input on which the scan stays inside `r_buffer` and
`w_buffer`, with `w_buffer` empty at the start, every `w_buffer:` line
printed shows exactly the concatenation, in order, of the tokens emitted
before it, and the line directly before it is a `Token:` line. -/
theorem wbuf_line_shows_tokens (r0 : Nat → Int) (input : List (Fin 256))
    (pre post : List Line) (x : List Int) (hb : InBounds (scan r0 [] input))
    (h : (main (some input) r0 []).lines = pre ++ Line.wbuf x :: post) :
    x = (tokensOf pre).flatten ∧ ∃ pre' t, pre = pre' ++ [Line.token t] := by
  rw [main_of_inBounds r0 [] input hb] at h
  simp only [Outcome.lines] at h
  obtain ⟨ts, tail, hout, htail⟩ := shape_scan r0 [] input
  rw [hout] at h
  have hnw : ∀ y, Line.wbuf y ∉ tail := by
    intro y hy
    rcases htail with h1 | ⟨t, h1⟩
    · simp [h1] at hy
    · simp [h1] at hy
  match pre, h with
  | [], h => simp at h
  | l :: pre1, h =>
    simp only [List.cons_append, List.cons.injEq] at h
    obtain ⟨h1, h2⟩ := h
    obtain ⟨e, pre', t, hp⟩ := wbuf_of_interleaved ts [] tail pre1 post x hnw h2
    subst h1 hp
    exact ⟨by simpa [tokensOf] using e, Line.header :: pre', t, rfl⟩

set_option maxRecDepth 8192 in
/-- C14 (witness): the amended claim for the `w_buffer:` line of the scan of
`"a b"`. -/
theorem wbuf_line_shows_tokens_witness :
    lit "a" = (tokensOf [Line.header, Line.token (lit "a")]).flatten ∧
      ∃ pre' t, [Line.header, Line.token (lit "a")] = pre' ++ [Line.token t] :=
  wbuf_line_shows_tokens (fun _ => 0) (bytes "a b") [Line.header, Line.token (lit "a")] []
    (lit "a") (by decide) (by decide)

set_option maxRecDepth 1000000 in
/-- C15 (counterexample): for the whitespace-free `xs = a NUL b` and the space
as `w`, the scan of `xs ++ [w]` emits the token `a`, not `xs`; for `xs = a`,
the space as `w`, the byte `0xFF` as `c` and `ys = b`, the scan of
`xs ++ [w, c] ++ ys` emits `a` only, while `xs :: tokens(ys)` is `a`, `b`;
and for `xs = a`, the space as `w`, `x` as `c` and 100 letters `b` as `ys`,
the scan stores outside `r_buffer` and what it emits is undefined. -/
theorem word_delim_counterexample :
    ((∀ b ∈ ([97, 0, 98] : List (Fin 256)), isspace (toChar (b.val : Int)) = false) ∧
      isspace (toChar ((32 : Fin 256).val : Int)) = true ∧
      tokens (fun _ => 0) [] ([97, 0, 98] ++ [32]) = [[97]] ∧
      tokens (fun _ => 0) [] ([97, 0, 98] ++ [32]) ≠ [chars [97, 0, 98]]) ∧
    (tokens (fun _ => 0) [] ([97] ++ [32, 255] ++ [98]) = [[97]] ∧
      tokens (fun _ => 0) [] [98] = [[98]] ∧
      tokens (fun _ => 0) [] ([97] ++ [32, 255] ++ [98])
        ≠ chars [97] :: tokens (fun _ => 0) [] [98]) ∧
    ¬ InBounds (scan (fun _ => 0) [] ([97] ++ [32, 120] ++ List.replicate 100 98)) := by
  decide

/-- C15 (amended): for every `xs` (possibly empty) without whitespace character,
NUL byte or byte `0xFF`, every whitespace byte `w`, every byte `c` other than
`0xFF` and every `ys` such that the scan of `xs ++ [w, c] ++ ys` stays inside
`r_buffer` and `w_buffer`: the tokens of `xs ++ [w, c] ++ ys` are `xs` and
then the tokens of `ys`; the tokens of `xs ++ [w]` are `xs` alone; the tokens
of `xs` are `xs` alone when `xs` is not empty and none when it is; `xs` has
at most 99 bytes, and the scans of `ys`, of `xs ++ [w]` and of `xs` stay
inside both arrays too. -/
theorem tokens_word_delim_char (r0 : Nat → Int) (w0 : List Int) (xs : List (Fin 256))
    (w c : Fin 256) (ys : List (Fin 256))
    (hx : ∀ b ∈ xs, isspace (toChar (b.val : Int)) = false ∧ b.val ≠ 0 ∧ b.val ≠ 255)
    (hw : isspace (toChar (w.val : Int)) = true) (hc : c.val ≠ 255)
    (hb : InBounds (scan r0 w0 (xs ++ [w, c] ++ ys))) :
    (tokens r0 w0 (xs ++ [w, c] ++ ys) = chars xs :: tokens r0 w0 ys ∧
      tokens r0 w0 (xs ++ [w]) = [chars xs] ∧
      tokens r0 w0 xs = (if xs = [] then [] else [chars xs])) ∧
    (xs.length ≤ 99 ∧ InBounds (scan r0 w0 ys) ∧ InBounds (scan r0 w0 (xs ++ [w])) ∧
      InBounds (scan r0 w0 xs)) := by
  obtain ⟨h1, h2, h3, h4, h5⟩ := loop_word_delim r0 w0 xs w hx hw
  have h6 := loop_word_delim_cats r0 w0 xs w hx hw
  have hall : ∀ b ∈ xs ++ [w], b.val ≠ 255 := by
    intro b hb'
    rcases List.mem_append.mp hb' with h | h
    · exact (hx b h).2.2
    · simp at h; rw [h]; exact ne_eof_of_isspace w hw
  have e : xs ++ [w, c] ++ ys = (xs ++ [w]) ++ c :: ys := by simp
  have hbig : scan r0 w0 (xs ++ [w, c] ++ ys)
      = flush (loop (step (loop (init r0 w0) (xs ++ [w])) (toChar (c.val : Int))) ys) := by
    simp only [scan]
    rw [e, loop_append _ _ _ hall, loop_cons_of_ne _ c ys hc]
  rw [hbig] at hb
  have hs3 := step_of_pending (loop (init r0 w0) (xs ++ [w])) (toChar (c.val : Int)) h2
  have hb3 := inBounds_before ys _ hb
  have hb2 : InBounds (loop (init r0 w0) (xs ++ [w])) := by
    rw [hs3] at hb3
    exact hb3
  have hlen : xs.length ≤ 99 := by
    have := hb2.1 xs.length (by rw [h5]; simp)
    omega
  have hbys : InBounds (scan r0 w0 ys) := by
    refine inBounds_resume r0 w0 ys _ ?_ ?_ xs.length ?_ hb
    · rw [hs3]; exact h1
    · rw [hs3]
    · rw [hs3]; simp [h4, chars]
  have hbxs : InBounds (scan r0 w0 xs) := by
    obtain ⟨g1, -, -, -, -, g6⟩ := loop_run (init r0 w0) xs (by simp [init])
      (fun b hb' => ⟨(hx b hb').2.2, (hx b hb').1⟩)
    have g7 := loop_run_cats (init r0 w0) xs (by simp [init])
      (fun b hb' => ⟨(hx b hb').2.2, (hx b hb').1⟩)
    obtain ⟨dw, hdw, -, hdc, -⟩ := flush_frame_logs (loop (init r0 w0) xs)
      (loop (init r0 w0) xs) rfl
    have g1' : (loop (init r0 w0) xs).idx = xs.length := by rw [g1]; simp [init]
    have g6' : (loop (init r0 w0) xs).writes = List.range' 0 xs.length := by
      rw [g6]; simp [init]
    refine ⟨?_, ?_⟩
    · intro i hi
      simp only [scan] at hi
      by_cases h0 : 0 < (loop (init r0 w0) xs).idx
      · rw [flush_of_pos _ h0] at hi
        have hi' : i ∈ (loop (init r0 w0) xs).writes ++ [(loop (init r0 w0) xs).idx] := hi
        rw [g6', g1'] at hi'
        simp only [List.mem_append, List.mem_range'_1, List.mem_singleton] at hi'
        omega
      · rw [flush_of_zero _ (by omega), g6'] at hi
        simp only [List.mem_range'_1] at hi
        omega
    · intro n hn
      simp only [scan] at hn
      rw [hdc, g7] at hn
      simp [init] at hn
  refine ⟨⟨?_, ?_, tokens_word r0 w0 xs hx⟩, hlen, hbys, ?_, hbxs⟩
  · have e' : xs ++ [w, c] ++ ys = xs ++ w :: c :: ys := by simp
    rw [e']
    exact tokens_word_sep r0 w0 xs w c ys hx hw hc
  · simp only [tokens, scan]
    rw [flush_of_zero _ h1, h3]
    rfl
  · simp only [scan]
    rw [flush_of_zero _ h1]
    exact hb2

set_option maxRecDepth 8192 in
/-- C15 (witness): the amended claim for `xs = ab`, the space as `w`, the
letter `x` as `c` and `ys = cd`. -/
theorem tokens_word_delim_char_witness :
    (tokens (fun _ => 0) [] (bytes "ab" ++ [32, 120] ++ bytes "cd")
        = chars (bytes "ab") :: tokens (fun _ => 0) [] (bytes "cd") ∧
      tokens (fun _ => 0) [] (bytes "ab" ++ [32]) = [chars (bytes "ab")] ∧
      tokens (fun _ => 0) [] (bytes "ab")
        = (if bytes "ab" = [] then [] else [chars (bytes "ab")])) ∧
    ((bytes "ab").length ≤ 99 ∧ InBounds (scan (fun _ => 0) [] (bytes "cd")) ∧
      InBounds (scan (fun _ => 0) [] (bytes "ab" ++ [32])) ∧
      InBounds (scan (fun _ => 0) [] (bytes "ab"))) :=
  tokens_word_delim_char (fun _ => 0) [] (bytes "ab") 32 120 (bytes "cd") (by decide)
    (by decide) (by decide) (by decide)

/-- C17: for every input that consists of `n` whitespace characters, the scan
emits exactly `ceil(n/2)` tokens, each of them the empty string. -/
theorem tokens_of_whitespace (r0 : Nat → Int) (w0 : List Int) (input : List (Fin 256))
    (h : ∀ b ∈ input, isspace (toChar (b.val : Int)) = true) :
    tokens r0 w0 input = List.replicate ((input.length + 1) / 2) [] := by
  have := (tokens_spaces_aux input h (init r0 w0) rfl).1 (by simp [init])
  simpa [tokens, scan, init, tokensOf] using this

set_option maxRecDepth 8192 in
/-- C17 (witness): the input of a space, a tab and a newline yields two empty
tokens. -/
theorem tokens_of_whitespace_witness :
    tokens (fun _ => 0) [] (bytes " \t\n") = List.replicate (((bytes " \t\n").length + 1) / 2) [] :=
  tokens_of_whitespace (fun _ => 0) [] (bytes " \t\n") (by decide)

/-- C18: in every state reachable by the loop from the loop entry (`idx = 0`,
`process = 1`), with every access so far inside its array, `process` is 0
or 1, `process = 0` implies `idx = 0`, and `idx` is at most 100; hence the
statement after the loop does nothing in a reachable state with
`process = 0`, which is the state right after the loop body has taken a
whitespace character as the end of a token. -/
theorem reachable_flag_invariant (s : State) (hs : Reachable s) :
    (s.process = 0 ∨ s.process = 1) ∧ (s.process = 0 → s.idx = 0) ∧ s.idx ≤ 100 ∧
      (s.process = 0 → flush s = s) ∧
      ∀ ch, s.process ≠ 0 → isspace ch = true → InBounds (step s ch) →
        (step s ch).process = 0 ∧ flush (step s ch) = step s ch := by
  obtain ⟨h01, hz⟩ := reachable_flag s hs
  refine ⟨h01, hz, reachable_idx_le s hs, fun hp => flush_of_zero s (hz hp), ?_⟩
  intro ch hp hc _
  rw [step_of_space s ch hp hc]
  exact ⟨rfl, flush_of_zero _ rfl⟩

set_option maxRecDepth 8192 in
/-- C18 (witness): the invariant in the state after the loop has read `"ab "`,
where the input ends directly after the delimiter. -/
theorem reachable_flag_invariant_witness :
    (loop (init (fun _ => 0) []) (bytes "ab ")).process = 0 ∧
      (loop (init (fun _ => 0) []) (bytes "ab ")).idx = 0 ∧
      (flush (loop (init (fun _ => 0) []) (bytes "ab "))).out
        = (loop (init (fun _ => 0) []) (bytes "ab ")).out :=
  have h := reachable_flag_invariant (loop (init (fun _ => 0) []) (bytes "ab "))
    (reachable_loop _ _ _ (by decide))
  ⟨by decide, h.2.1 (by decide), congrArg State.out (h.2.2.2.1 (by decide))⟩

/-- C19 (the code at the failing input): with `w_buffer` empty at the start, on
the input `a`, space, `0xFF` the scan prints the header and `Token: a` and no
`w_buffer:` line, although the token `a` was ended by a delimiter and one
more byte follows it in the file: the byte `0xFF`, stored in the `char ch`,
compares equal to `EOF` and ends the loop.  With the letter `b` in place
of `0xFF` the `w_buffer:` line is printed. -/
theorem scan_delim_then_0xFF :
    (scan (fun _ => 0) [] [97, 32, 255]).out = [Line.header, Line.token [97]] ∧
      wbufsOf (scan (fun _ => 0) [] [97, 32, 255]).out = [] ∧
      (scan (fun _ => 0) [] [97, 32, 98]).out
        = [Line.header, Line.token [97], Line.wbuf [97]] := by
  decide

end Parsing
